import Mathlib

/-!
Verification of the WebScraper event-extraction core.

Shallow embedding of the repository's core (app/core/workflow_orchestrator.py,
app/core/url_utils.py, app/api/endpoints.py, app/llm_services/google_ai_llm.py)
and proofs about it.  External collaborators (network scraper, the generative
language backend, optical text recognition, image decoding, the schema file)
are modelled as explicit function parameters returning `Except`, mirroring
Python calls that may raise; every embedded function is executable.

Python values that can sit in an EventRecord field (None, str, list of str,
bool) are modelled by `PyVal`; Python string truthiness and the exact
`is not None and != ""` checks of the merge code are modelled separately,
mirroring each line of the source.
-/

namespace Scraper

/-- The single-quote character as a string (used to build Python-style
renderings such as conflict notes). -/
def sq : String := String.singleton (Char.ofNat 39)

/-- A Python value that can occupy an EventRecord field: None, a string, a
list of strings, or a bool (app/api/models.py, class EventRecord). -/
inductive PyVal where
  | vnone
  | vstr (s : String)
  | vlist (l : List String)
  | vbool (b : Bool)

deriving instance DecidableEq for PyVal

/-- Python `str(v)` for the values above (list rendering follows Python's
`str` of a list of strings; `repr` escaping of exotic characters is not
modelled). -/
def pyStrOf : PyVal → String
  | .vnone => "None"
  | .vstr s => s
  | .vlist l => "[" ++ String.intercalate ", " (l.map (fun x => sq ++ x ++ sq)) ++ "]"
  | .vbool b => if b then "True" else "False"

/-- Python truthiness of a `PyVal` (`if v:`). -/
def pyTruthy : PyVal → Bool
  | .vnone => false
  | .vstr s => !(s == "")
  | .vlist l => !l.isEmpty
  | .vbool b => b

/-- The check `field_value is not None and field_value != ""` of
`_merge_event_data` (workflow_orchestrator.py line 235).  Note that an empty
list or `False` passes this check in Python, exactly as here. -/
def pyPresent (v : PyVal) : Bool :=
  !(v == PyVal.vnone) && !(v == PyVal.vstr "")

/-- The check `existing_value is None or existing_value == ""` of
`_merge_event_data` (workflow_orchestrator.py line 238). -/
def pyEmptyCell (v : PyVal) : Bool :=
  v == PyVal.vnone || v == PyVal.vstr ""

/-- The fields of EventRecord, in declaration order (app/api/models.py lines
11-30); pydantic's `.dict()` iterates them in this order. -/
inductive EField where
  | date | fromTime | toTime | eventName | industry | industry2 | eventMode
  | descr | hostCompany | moreCompanies | hostSpeaker | moreSpeakers
  | regLink | moreLinks | image | cost | email | weekday | inCalendar | err

deriving instance DecidableEq for EField

deriving instance Fintype for EField

/-- The Python attribute name of each field (the Hebrew names are copied
verbatim from app/api/models.py). -/
def fieldName : EField → String
  | .date => "תאריך"
  | .fromTime => "משעה"
  | .toTime => "עד_שעה"
  | .eventName => "שם_האירוע"
  | .industry => "תעשיה"
  | .industry2 => "תעשיה_2"
  | .eventMode => "אירועי_פיזי_אונליין"
  | .descr => "תוכן"
  | .hostCompany => "חברה_מארחת"
  | .moreCompanies => "חברות_נוספות"
  | .hostSpeaker => "מרצה_מארח"
  | .moreSpeakers => "מרצים_נוספים"
  | .regLink => "לינק_להרשמה"
  | .moreLinks => "לינקים_נוספים"
  | .image => "IMAGE"
  | .cost => "עלות"
  | .email => "אי_מייל_למשתתפים"
  | .weekday => "יום_בשבוע"
  | .inCalendar => "IN_CALENDAR"
  | .err => "Error"

/-- `source.dict().items()` iteration order: the declaration order of the
EventRecord fields. -/
def fieldOrder : List EField :=
  [.date, .fromTime, .toTime, .eventName, .industry, .industry2, .eventMode,
   .descr, .hostCompany, .moreCompanies, .hostSpeaker, .moreSpeakers,
   .regLink, .moreLinks, .image, .cost, .email, .weekday, .inCalendar, .err]

/-- An EventRecord: a value for every field (all default to None). -/
def ERec : Type := EField → PyVal

/-- `EventRecord()`: every field is None. -/
def emptyRec : ERec := fun _ => PyVal.vnone

/-- `setattr(record, f, v)`. -/
def setField (r : ERec) (f : EField) (v : PyVal) : ERec :=
  fun g => if g = f then v else r g

/-- The conflict note built at workflow_orchestrator.py line 242:
`f"Conflict in {field_name}: '{existing_value}' vs '{field_value}'"`. -/
def conflictNote (f : EField) (oldv newv : PyVal) : String :=
  "Conflict in " ++ fieldName f ++ ": " ++ sq ++ pyStrOf oldv ++ sq
    ++ " vs " ++ sq ++ pyStrOf newv ++ sq

/-- One iteration of the `for field_name, field_value in source.dict().items()`
loop of `_merge_event_data` (workflow_orchestrator.py lines 234-242), acting
on the pair (target record so far, error notes so far). -/
def mergeFold (s : ERec) (acc : ERec × List String) (f : EField) : ERec × List String :=
  let v := s f
  if pyPresent v then
    let e := acc.1 f
    if pyEmptyCell e then (setField acc.1 f v, acc.2)
    else if e ≠ v then (acc.1, acc.2 ++ [conflictNote f e v])
    else acc
  else acc

/-- The whole field loop of `_merge_event_data`: the mutated target and the
accumulated conflict notes. -/
def mergeRun (t s : ERec) : ERec × List String :=
  fieldOrder.foldl (mergeFold s) (t, [])

/-- `current_errors = target.Error if target.Error else ""` read AFTER the
field loop (workflow_orchestrator.py line 245), so an Error value copied from
`source` during the loop is seen here. -/
def annotBase (r : ERec) : String :=
  if pyTruthy (r EField.err) then pyStrOf (r EField.err) else ""

/-- `current_errors + "; " + "; ".join(errors) if current_errors else
"; ".join(errors)` (workflow_orchestrator.py line 246). -/
def joinAnnot (cur joined : String) : String :=
  if cur == "" then joined else cur ++ "; " ++ joined

/-- `_merge_event_data(target, source)` (workflow_orchestrator.py lines
228-246): the returned value is the mutated target. -/
def mergeEventData (t s : ERec) : ERec :=
  let r := mergeRun t s
  if r.2.isEmpty then r.1
  else setField r.1 EField.err
    (PyVal.vstr (joinAnnot (annotBase r.1) (String.intercalate "; " r.2)))

/-- What one loop iteration leaves in a field (the code's copy/keep policy). -/
def mergeCell (e v : PyVal) : PyVal :=
  if pyPresent v then (if pyEmptyCell e then v else e) else e

/-- The conflict note one loop iteration emits for a field, if any. -/
def noteCell (f : EField) (e v : PyVal) : Option String :=
  if pyPresent v && !pyEmptyCell e && !(e == v) then some (conflictNote f e v)
  else none

theorem mergeFold_fst (s : ERec) (t : ERec) (acc : List String) (f g : EField) :
    (mergeFold s (t, acc) f).1 g = if g = f then mergeCell (t f) (s f) else t g := by
  by_cases hg : g = f
  · subst hg
    simp only [mergeFold, mergeCell, if_pos rfl]
    by_cases hp : pyPresent (s g)
    · by_cases he : pyEmptyCell (t g)
      · simp [hp, he, setField]
      · by_cases hne : t g ≠ s g
        · simp [hp, he, hne]
        · simp [hp, he, hne]
    · simp [hp]
  · simp only [mergeFold, if_neg hg]
    by_cases hp : pyPresent (s f)
    · by_cases he : pyEmptyCell (t f)
      · simp [hp, he, setField, hg]
      · by_cases hne : t f ≠ s f
        · simp [hp, he, hne]
        · simp [hp, he, hne]
    · simp [hp]

theorem mergeFold_snd (s : ERec) (t : ERec) (acc : List String) (f : EField) :
    (mergeFold s (t, acc) f).2 = acc ++ (noteCell f (t f) (s f)).toList := by
  simp only [mergeFold, noteCell]
  by_cases hp : pyPresent (s f)
  · by_cases he : pyEmptyCell (t f)
    · simp [hp, he]
    · by_cases hne : t f = s f
      · rw [hne] at he
        simp [hp, he, hne]
      · simp [hp, he, hne]
  · simp [hp]

theorem mergeRun_go (s : ERec) (l : List EField) (hl : l.Nodup) (t : ERec)
    (acc : List String) :
    (∀ g, (l.foldl (mergeFold s) (t, acc)).1 g
        = if g ∈ l then mergeCell (t g) (s g) else t g)
    ∧ (l.foldl (mergeFold s) (t, acc)).2
        = acc ++ l.filterMap (fun f => noteCell f (t f) (s f)) := by
  induction l generalizing t acc with
  | nil => simp
  | cons f l ih =>
    have hfl : f ∉ l := (List.nodup_cons.mp hl).1
    have hl' : l.Nodup := (List.nodup_cons.mp hl).2
    have step : l.foldl (mergeFold s) (mergeFold s (t, acc) f)
        = l.foldl (mergeFold s) ((mergeFold s (t, acc) f).1, (mergeFold s (t, acc) f).2) := by
      rfl
    constructor
    · intro g
      rw [List.foldl_cons, step]
      rw [(ih hl' _ _).1 g]
      by_cases hgl : g ∈ l
      · have hgf : g ≠ f := fun h => hfl (h ▸ hgl)
        rw [mergeFold_fst s t acc f g, if_neg hgf]
        simp [hgl, List.mem_cons]
      · rw [mergeFold_fst s t acc f g]
        by_cases hgf : g = f
        · simp [hgf, hgl, hfl]
        · simp [hgf, hgl]
    · rw [List.foldl_cons, step]
      rw [(ih hl' _ _).2, mergeFold_snd]
      have harg : ∀ f' ∈ l, noteCell f' ((mergeFold s (t, acc) f).1 f') (s f')
          = noteCell f' (t f') (s f') := by
        intro f' hf'
        have : f' ≠ f := fun h => hfl (h ▸ hf')
        rw [mergeFold_fst s t acc f f', if_neg this]
      rw [List.filterMap_congr harg]
      cases hnc : noteCell f (t f) (s f) with
      | none => simp [List.filterMap_cons, hnc]
      | some n => simp [List.filterMap_cons, hnc]

theorem fieldOrder_nodup : fieldOrder.Nodup := by decide

theorem fieldOrder_complete : ∀ f : EField, f ∈ fieldOrder := by decide

theorem mergeRun_fst (t s : ERec) (g : EField) :
    (mergeRun t s).1 g = mergeCell (t g) (s g) := by
  have h := (mergeRun_go s fieldOrder fieldOrder_nodup t []).1 g
  rw [mergeRun, h, if_pos (fieldOrder_complete g)]

theorem mergeRun_snd (t s : ERec) :
    (mergeRun t s).2 = fieldOrder.filterMap (fun f => noteCell f (t f) (s f)) := by
  have h := (mergeRun_go s fieldOrder fieldOrder_nodup t []).2
  rw [mergeRun, h, List.nil_append]

theorem mergeEventData_field (t s : ERec) (f : EField) (hf : f ≠ EField.err) :
    mergeEventData t s f = mergeCell (t f) (s f) := by
  rw [mergeEventData]
  by_cases he : (mergeRun t s).2.isEmpty
  · simp only [he, if_pos]
    exact mergeRun_fst t s f
  · simp only [he, if_neg, Bool.false_eq_true, not_false_iff, setField, if_neg hf]
    exact mergeRun_fst t s f

/-- `p` is a prefix of `s` (executable, on the character lists). -/
def strPrefixOf (p s : String) : Bool := p.data.isPrefixOf s.data

/-- Recognizes the conflict note emitted for field `f` (its fixed
`"Conflict in <name>:"` head). -/
def isConflictNoteFor (f : EField) (e : String) : Bool :=
  strPrefixOf ("Conflict in " ++ fieldName f ++ ":") e

theorem colon_prefix_eq {a : List Char} (b r : List Char) (ha : (':' : Char) ∉ a)
    (hb : (':' : Char) ∉ b) (h : (a ++ [':']) <+: (b ++ ':' :: r)) : a = b := by
  induction a generalizing b with
  | nil =>
    cases b with
    | nil => rfl
    | cons c cs =>
      rw [List.nil_append, List.cons_append] at h
      have hc := (List.cons_prefix_cons.mp h).1
      exact absurd hc.symm (fun hcc => hb (by simp [hcc]))
  | cons x a' ih =>
    cases b with
    | nil =>
      rw [List.cons_append, List.nil_append] at h
      have hc := (List.cons_prefix_cons.mp h).1
      exact absurd hc (fun hcc => ha (by simp [hcc]))
    | cons c cs =>
      rw [List.cons_append, List.cons_append] at h
      have h1 := (List.cons_prefix_cons.mp h).1
      have h2 := (List.cons_prefix_cons.mp h).2
      have ha' : (':' : Char) ∉ a' := fun hx => ha (List.mem_cons_of_mem _ hx)
      have hb' : (':' : Char) ∉ cs := fun hx => hb (List.mem_cons_of_mem _ hx)
      rw [h1, ih cs ha' hb' h2]

theorem fieldName_colon_free : ∀ f : EField, (':' : Char) ∉ (fieldName f).data := by
  intro f
  cases f <;> decide

theorem fieldName_inj : ∀ f g : EField, fieldName f = fieldName g → f = g := by decide

theorem data_append (s t : String) : (s ++ t).data = s.data ++ t.data := rfl

theorem isConflictNoteFor_note (f g : EField) (a b : PyVal) :
    isConflictNoteFor f (conflictNote g a b) = true ↔ f = g := by
  have hs : (conflictNote g a b).data
      = "Conflict in ".data ++ ((fieldName g).data ++ ':' ::
          (' ' :: (sq ++ pyStrOf a ++ sq ++ " vs " ++ sq ++ pyStrOf b ++ sq).data)) := by
    rw [conflictNote]
    simp only [data_append, List.append_assoc]
    rfl
  have hp : ("Conflict in " ++ fieldName f ++ ":").data
      = "Conflict in ".data ++ ((fieldName f).data ++ [':']) := by
    simp only [data_append, List.append_assoc]
  constructor
  · intro h
    rw [isConflictNoteFor, strPrefixOf] at h
    rw [List.isPrefixOf_iff_prefix, hs, hp, List.prefix_append_right_inj] at h
    have hd := colon_prefix_eq ((fieldName g).data) _ (fieldName_colon_free f)
      (fieldName_colon_free g) h
    exact fieldName_inj f g (String.ext hd)
  · intro h
    subst h
    rw [isConflictNoteFor, strPrefixOf, List.isPrefixOf_iff_prefix, hs, hp,
      List.prefix_append_right_inj]
    exact ⟨' ' :: (sq ++ pyStrOf a ++ sq ++ " vs " ++ sq ++ pyStrOf b ++ sq).data, by simp⟩

theorem noteCell_some {f : EField} {e v : PyVal} {d : String}
    (h : noteCell f e v = some d) : d = conflictNote f e v := by
  rw [noteCell] at h
  by_cases hc : (pyPresent v && !pyEmptyCell e && !(e == v)) = true
  · rw [if_pos hc] at h
    exact (Option.some_injective _ h).symm
  · rw [if_neg hc] at h
    exact absurd h (by simp)

theorem filter_filterMap_single {l : List EField} {f : EField} (hn : l.Nodup)
    (hm : f ∈ l) (G : EField → Option String) (p : String → Bool) (c : String)
    (hf : G f = some c) (hp : p c = true)
    (ho : ∀ g, g ≠ f → ∀ d, G g = some d → p d = false) :
    (l.filterMap G).filter p = [c] := by
  induction l with
  | nil => exact absurd hm (by simp)
  | cons g l ih =>
    have hgl : g ∉ l := (List.nodup_cons.mp hn).1
    have hl' : l.Nodup := (List.nodup_cons.mp hn).2
    by_cases hgf : g = f
    · subst hgf
      rw [List.filterMap_cons, hf]
      have hrest : (l.filterMap G).filter p = [] := by
        rw [List.filter_eq_nil_iff]
        intro d hd
        obtain ⟨g', hg', hGg'⟩ := List.mem_filterMap.mp hd
        have hne : g' ≠ g := fun h => hgl (h ▸ hg')
        simp [ho g' hne d hGg']
      rw [List.filter_cons, if_pos hp, hrest]
    · have hm' : f ∈ l := by
        cases List.mem_cons.mp hm with
        | inl h => exact absurd h.symm hgf
        | inr h => exact h
      rw [List.filterMap_cons]
      cases hG : G g with
      | none => exact ih hl' hm'
      | some d =>
        rw [List.filter_cons, if_neg (by simp [ho g hgf d hG])]
        exact ih hl' hm'

/-- C1: for every target and source EventRecord and every data field `f`
(i.e. every field other than the Error annotation itself) whose source value
passes the code's non-null/non-empty check: if the target's value is null or
empty the field is copied from source; if the target holds a different
non-empty value, the target's field is unchanged and the note list of the
merge contains exactly one note for `f`, namely
`"Conflict in <f>: '<old>' vs '<new>'"`, and the Error annotation becomes the
existing annotation joined to the notes by the `"; "` separator
(workflow_orchestrator.py, `_merge_event_data`, lines 228-246). -/
theorem merger_field_contract (t s : ERec) (f : EField) (hf : f ≠ EField.err)
    (hp : pyPresent (s f) = true) :
    (pyEmptyCell (t f) = true → mergeEventData t s f = s f)
    ∧ (pyEmptyCell (t f) = false → t f ≠ s f →
        mergeEventData t s f = t f
        ∧ ((mergeRun t s).2).filter (fun e => isConflictNoteFor f e)
            = [conflictNote f (t f) (s f)]
        ∧ mergeEventData t s EField.err
            = PyVal.vstr (joinAnnot (annotBase (mergeRun t s).1)
                (String.intercalate "; " (mergeRun t s).2))) := by
  constructor
  · intro he
    rw [mergeEventData_field t s f hf, mergeCell, if_pos hp, if_pos he]
  · intro he hne
    have hnote : noteCell f (t f) (s f) = some (conflictNote f (t f) (s f)) := by
      rw [noteCell, if_pos]
      simp [hp, he, hne]
    have hfilter : ((mergeRun t s).2).filter (fun e => isConflictNoteFor f e)
        = [conflictNote f (t f) (s f)] := by
      rw [mergeRun_snd]
      refine filter_filterMap_single fieldOrder_nodup (fieldOrder_complete f)
        _ _ _ hnote ((isConflictNoteFor_note f f _ _).mpr rfl) ?_
      intro g hg d hGd
      rw [noteCell_some hGd]
      have := isConflictNoteFor_note f g (t g) (s g)
      by_cases hb : isConflictNoteFor f (conflictNote g (t g) (s g)) = true
      · exact absurd (this.mp hb).symm hg
      · simp at hb
        exact hb
    have hnonempty : ¬(mergeRun t s).2.isEmpty = true := by
      intro hE
      rw [List.isEmpty_iff] at hE
      rw [hE] at hfilter
      exact absurd hfilter (by simp)
    refine ⟨?_, hfilter, ?_⟩
    · rw [mergeEventData_field t s f hf, mergeCell, if_pos hp, if_neg (by simp [he])]
    · have hne2 : ¬(mergeRun t s).2 = [] := by
        simpa [List.isEmpty_iff] using hnonempty
      rw [mergeEventData]
      simp only [List.isEmpty_iff, if_neg hne2, setField, if_pos rfl]
      simp

/-- A concrete merge target for the C1 witness. -/
def c1t : ERec := setField emptyRec EField.date (PyVal.vstr "01.01.25")

/-- A concrete merge source for the C1 witness. -/
def c1s : ERec := setField emptyRec EField.date (PyVal.vstr "02.01.25")

theorem merger_field_contract_witness :
    (EField.date ≠ EField.err ∧ pyPresent (c1s EField.date) = true)
    ∧ ((pyEmptyCell (c1t EField.date) = true
          → mergeEventData c1t c1s EField.date = c1s EField.date)
      ∧ (pyEmptyCell (c1t EField.date) = false → c1t EField.date ≠ c1s EField.date →
          mergeEventData c1t c1s EField.date = c1t EField.date
          ∧ ((mergeRun c1t c1s).2).filter (fun e => isConflictNoteFor EField.date e)
              = [conflictNote EField.date (c1t EField.date) (c1s EField.date)]
          ∧ mergeEventData c1t c1s EField.err
              = PyVal.vstr (joinAnnot (annotBase (mergeRun c1t c1s).1)
                  (String.intercalate "; " (mergeRun c1t c1s).2)))) :=
  ⟨⟨by decide, by decide⟩,
    merger_field_contract c1t c1s EField.date (by decide) (by decide)⟩

/-! ## URL utilities (app/core/url_utils.py, modelling CPython 3.11.6's
urllib.parse for the inputs this repository feeds it: `urlsplit`'s params
component is kept inside the path, which `urlunparse` re-joins identically
(the two differ only in `urljoin`'s dot-segment resolution when the last
segment carries params, which no claim exercises).  `urlsplitL` computes the
components `urlsplit` returns; the `ValueError` paths of `urlsplit` — the
bracket balance check, the bracketed-host validation against `ipaddress`,
and the `_checknetloc` NFKC check — are carried by `urlsplitE`, which yields
those same components exactly when no check fires.  The NFKC normalization
table (`unicodedata.normalize`) is an external Unicode database and enters as
an explicit `nfkc` parameter; `_checknetloc` consults it only for non-ASCII
netlocs.  Character case operations are modelled for ASCII, which is what
`.lower()` does on the ASCII schemes and hosts involved. -/

/-- ASCII whitespace: the subset of Python `str.strip()`'s whitespace used
where only ASCII text is at stake (the OCR-text guard); the full Unicode set
is `pySpaceU`. -/
def pySpace (c : Char) : Bool :=
  c == ' ' || c == '\t' || c == '\n' || c == '\r' || c == '\x0b' || c == '\x0c'

/-- Python `str.strip()` over ASCII whitespace. -/
def pyStripL (s : List Char) : List Char :=
  ((s.dropWhile pySpace).reverse.dropWhile pySpace).reverse

/-- `pyStripL` on a `String`. -/
def pyStrip (s : String) : String := ⟨pyStripL s.data⟩

/-- The full Python `str.isspace()` character set (the characters
`str.strip()` removes): the ASCII whitespace and separators 0x09-0x0D,
0x1C-0x20, next line 0x85, no-break space 0xA0, ogham space 0x1680, the
en/em spaces 0x2000-0x200A, line and paragraph separators 0x2028-0x2029,
narrow no-break space 0x202F, mathematical space 0x205F, and ideographic
space 0x3000. -/
def pySpaceU (c : Char) : Bool :=
  let n := c.toNat
  (decide (9 ≤ n) && decide (n ≤ 13)) || (decide (28 ≤ n) && decide (n ≤ 32))
    || n == 133 || n == 160 || n == 5760
    || (decide (8192 ≤ n) && decide (n ≤ 8202))
    || n == 8232 || n == 8233 || n == 8239 || n == 8287 || n == 12288

/-- Python `str.strip()` (the full Unicode whitespace set). -/
def pyStripU (s : List Char) : List Char :=
  ((s.dropWhile pySpaceU).reverse.dropWhile pySpaceU).reverse

/-- Split a list at the first occurrence of `d`: `some (before, after)`
(`d` excluded), or `none` when `d` does not occur.  Mirrors the
`find`/`split('x', 1)` steps of CPython's `urlsplit`. -/
def breakAtFirst (d : Char) : List Char → Option (List Char × List Char)
  | [] => none
  | c :: cs =>
    if c = d then some ([], cs)
    else (breakAtFirst d cs).map (fun p => (c :: p.1, p.2))

/-- CPython `scheme_chars`: letters, digits, `+`, `-`, `.`. -/
def isSchemeChar (c : Char) : Bool :=
  c.isAlpha || c.isDigit || c == '+' || c == '-' || c == '.'

/-- ASCII lower-casing of a character list (CPython `.lower()` on the ASCII
hosts and schemes this code handles). -/
def toLowerL (s : List Char) : List Char := s.map Char.toLower

/-- The characters that end the netloc in CPython's `urlsplit`. -/
def netlocDelim (c : Char) : Bool := c == '/' || c == '?' || c == '#'

/-- A C0 control character or space (CPython `_WHATWG_C0_CONTROL_OR_SPACE`,
stripped from the start of the url by `urlsplit`). -/
def c0OrSpace (c : Char) : Bool := decide (c.toNat ≤ 32)

/-- Tab, CR or LF (CPython `_UNSAFE_URL_BYTES_TO_REMOVE`, removed everywhere
in the url by `urlsplit`). -/
def tabCrLf (c : Char) : Bool := c == '\t' || c == '\r' || c == '\n'

/-- The cleaning CPython 3.11's `urlsplit` applies before parsing: left-strip
C0 controls and spaces, then remove every tab, CR and LF. -/
def cleanUrl (u : List Char) : List Char :=
  (u.dropWhile c0OrSpace).filter (fun c => !tabCrLf c)

/-- CPython `uses_netloc` (each scheme as a character list). -/
def usesNetloc : List (List Char) :=
  (["", "ftp", "http", "gopher", "nntp", "telnet", "imap", "wais", "file",
    "mms", "https", "shttp", "snews", "prospero", "rtsp", "rtsps", "rtspu",
    "rsync", "svn", "svn+ssh", "sftp", "nfs", "git", "git+ssh", "ws",
    "wss"]).map String.data

/-- CPython `uses_relative` (each scheme as a character list). -/
def usesRelative : List (List Char) :=
  (["", "ftp", "http", "gopher", "nntp", "imap", "wais", "file", "https",
    "shttp", "mms", "prospero", "rtsp", "rtsps", "rtspu", "sftp", "svn",
    "svn+ssh", "ws", "wss"]).map String.data

/-- The result of CPython's `urlsplit` (params folded into `path`). -/
structure UrlSplit where
  scheme : List Char
  netloc : List Char
  path : List Char
  query : List Char
  fragment : List Char

/-- Python's `if d in url: url, x = url.split(d, 1)` step (`x = ''` when `d`
does not occur). -/
def pySplitOnce (d : Char) (r : List Char) : List Char × List Char :=
  match breakAtFirst d r with
  | some p => p
  | none => (r, [])

/-- The fragment and query splits of CPython's `urlsplit` applied to what
remains after the scheme and netloc are removed: fragment split first
(`url.split('#', 1)`), then query (`url.split('?', 1)`). -/
def splitPQF (rest : List Char) : List Char × List Char × List Char :=
  let fr := pySplitOnce '#' rest
  let pq := pySplitOnce '?' fr.1
  (pq.1, pq.2, fr.2)

/-- The parsing part of CPython 3.11 `urlsplit`, applied after cleaning:
split the scheme at the first `:` when the head is a letter and the rest are
scheme characters (extracted scheme lower-cased), netloc after `//` up to
`/`, `?` or `#`, then fragment and query splits. -/
def urlsplitCore (dscheme : List Char) (url : List Char) : UrlSplit :=
  let sr : List Char × List Char :=
    match breakAtFirst ':' url with
    | some (before, after) =>
      match before with
      | [] => (dscheme, url)
      | c :: cs =>
        if c.isAlpha && cs.all isSchemeChar then (toLowerL (c :: cs), after)
        else (dscheme, url)
    | none => (dscheme, url)
  let nr : List Char × List Char :=
    if sr.2.take 2 = ['/', '/'] then
      ((sr.2.drop 2).takeWhile (fun c => !netlocDelim c),
       (sr.2.drop 2).dropWhile (fun c => !netlocDelim c))
    else ([], sr.2)
  let pqf := splitPQF nr.2
  ⟨sr.1, nr.1, pqf.1, pqf.2.1, pqf.2.2⟩

/-- CPython 3.11 `urlsplit(url, scheme=dscheme)`. -/
def urlsplitL (dscheme : List Char) (url0 : List Char) : UrlSplit :=
  urlsplitCore dscheme (cleanUrl url0)

/-- CPython 3.11 `urlunsplit` (and `urlunparse` with empty params): the
`//` marker is kept whenever there is a netloc, or the scheme uses a netloc
and the path does not itself start with `//`. -/
def urlunsplitL (u : UrlSplit) : List Char :=
  let p0 := u.path
  let p1 :=
    if !u.netloc.isEmpty
        || (!u.scheme.isEmpty && usesNetloc.contains u.scheme
            && !(p0.take 2 == ['/', '/'])) then
      '/' :: '/' :: (u.netloc ++
        (if !p0.isEmpty && p0.head? ≠ some '/' then '/' :: p0 else p0))
    else p0
  let p2 := if !u.scheme.isEmpty then u.scheme ++ ':' :: p1 else p1
  let p3 := if !u.query.isEmpty then p2 ++ '?' :: u.query else p2
  if !u.fragment.isEmpty then p3 ++ '#' :: u.fragment else p3

/-- `pfx` is a prefix of `s` (Python `str.startswith`). -/
def startsWithL (pfx s : List Char) : Bool := pfx.isPrefixOf s

/-- `normalize_url` (url_utils.py lines 25-43): default `https://` scheme for
inputs without `http://`/`https://`, host lower-cased, fragment removed. -/
def normalize_urlL (url : List Char) : List Char :=
  let u := if startsWithL "http://".data url || startsWithL "https://".data url then url
           else "https://".data ++ url
  let p := urlsplitL [] u
  urlunsplitL ⟨p.scheme, toLowerL p.netloc, p.path, p.query, []⟩

/-- `normalize_url` on a `String`. -/
def normalize_url (s : String) : String := ⟨normalize_urlL s.data⟩

/-! ### The `ValueError` paths of `urlsplit`

CPython 3.11.6's `urlsplit` raises inside the `//` branch when the netloc's
brackets are unbalanced (`"Invalid IPv6 URL"`) or a bracketed host is neither
a valid IPv6 literal nor an IPvFuture form (`_check_bracketed_host`, backed
by `ipaddress.ip_address`), and at the end when a non-ASCII netloc changes
under NFKC in a way that introduces a delimiter (`_checknetloc`).  These
checks are modelled below; `ipaddress`'s string parsers are embedded in
full. -/

/-- A hex digit (`ipaddress._BaseV6._HEX_DIGITS`). -/
def isHexDig (c : Char) : Bool :=
  (decide (48 ≤ c.toNat) && decide (c.toNat ≤ 57))
    || (decide (97 ≤ c.toNat) && decide (c.toNat ≤ 102))
    || (decide (65 ≤ c.toNat) && decide (c.toNat ≤ 70))

/-- An ASCII decimal digit (the octet check `octet_str.isascii() and
octet_str.isdigit()` restricts to exactly these). -/
def isAsciiDigit (c : Char) : Bool :=
  decide (48 ≤ c.toNat) && decide (c.toNat ≤ 57)

/-- The decimal value of an (all-digit) octet string. -/
def octetVal (s : List Char) : Nat := s.foldl (fun a c => a * 10 + (c.toNat - 48)) 0

/-- `ipaddress.IPv4Address._parse_octet` succeeds: non-empty, ASCII decimal
digits only, at most 3 of them, no leading zero except for `"0"` itself, and
a value of at most 255. -/
def ipv4OctetOk (s : List Char) : Bool :=
  !s.isEmpty && s.all isAsciiDigit && decide (s.length ≤ 3)
    && (s == ['0'] || !(s.head? == some '0'))
    && decide (octetVal s ≤ 255)

/-- `ipaddress.IPv4Address` accepts the string: no `/`, and exactly four
octets separated by `.` that each pass `_parse_octet`. -/
def isIPv4Addr (s : List Char) : Bool :=
  !s.contains '/' && !s.isEmpty
    && (let octets := s.splitOn '.'
        octets.length == 4 && octets.all ipv4OctetOk)

/-- `ipaddress._BaseV6._parse_hextet` succeeds: hex digits only, at most 4,
and non-empty (the empty string fails its integer conversion). -/
def hextetOk (s : List Char) : Bool :=
  !s.isEmpty && s.all isHexDig && decide (s.length ≤ 4)

/-- The `::` analysis of `ipaddress._BaseV6._ip_int_from_string` on the
colon-separated parts (after any IPv4 suffix conversion): at most one empty
interior part; with one (`::`), an empty endpoint is only permitted right
next to it, at most 7 explicit hextets remain and each parses; with none,
exactly 8 parts that each parse. -/
def ipv6PartsOk (parts : List (List Char)) : Bool :=
  let n := parts.length
  match (List.range n).filter
      (fun i => decide (0 < i) && decide (i < n - 1) && (parts.getD i []).isEmpty) with
  | [] => n == 8 && parts.all hextetOk
  | [skip] =>
    let headEmpty := (parts.getD 0 ['x']).isEmpty
    let lastEmpty := ((parts.getLast?).getD ['x']).isEmpty
    let hi := if headEmpty then skip - 1 else skip
    let lo := if lastEmpty then n - skip - 2 else n - skip - 1
    (!headEmpty || hi == 0) && (!lastEmpty || lo == 0)
      && decide (hi + lo ≤ 7)
      && (parts.take hi).all hextetOk && (parts.drop (n - lo)).all hextetOk
  | _ => false

/-- `ipaddress._BaseV6._ip_int_from_string` succeeds: non-empty, at least 3
colon-separated parts, a dotted last part must be a valid IPv4 address (it
stands for two extra hextets; only their count matters for validity, so they
are represented by `"0"`s), at most 9 parts after that conversion, and the
`::` analysis accepts. -/
def ipv6Core (a : List Char) : Bool :=
  !a.isEmpty
    && (let parts := a.splitOn ':'
        decide (3 ≤ parts.length)
          && (match parts.getLast? with
              | none => false
              | some last =>
                if last.contains '.' then
                  isIPv4Addr last
                    && (let parts2 := parts.dropLast ++ [['0'], ['0']]
                        decide (parts2.length ≤ 9) && ipv6PartsOk parts2)
                else decide (parts.length ≤ 9) && ipv6PartsOk parts))

/-- `ipaddress.IPv6Address` accepts the string: no `/`; an optional scope id
after the first `%` must be non-empty and `%`-free; the address part parses
(`_split_scope_id` then `_ip_int_from_string`). -/
def isIPv6Addr (s : List Char) : Bool :=
  !s.contains '/'
    && (match breakAtFirst '%' s with
        | none => ipv6Core s
        | some (addr, scope) => !scope.isEmpty && !scope.contains '%' && ipv6Core addr)

/-- The IPvFuture pattern of `_check_bracketed_host`:
`re.match` with `\Av[a-fA-F0-9]+\..+\Z` — a `v`, at least one hex digit,
a literal dot, then at least one character none of which is a newline
(`.` does not match `\n`).  The hex run before the dot is necessarily
maximal, since `.` is not a hex digit. -/
def ipvFutureOk : List Char → Bool
  | 'v' :: rest =>
    let hexs := rest.takeWhile isHexDig
    !hexs.isEmpty
      && (match rest.dropWhile isHexDig with
          | '.' :: tail => !tail.isEmpty && tail.all (fun c => !(c == '\n'))
          | _ => false)
  | _ => false

/-- Python `repr` of a string, for the `f-string` of `ip_address`'s error:
quotes around the text (escaping of quotes and non-printable characters
inside the host is not reproduced; no claim inspects this message). -/
def pyReprStr (s : List Char) : String := sq ++ String.mk s ++ sq

/-- `_check_bracketed_host` (urllib/parse.py): a host starting with `v` must
match the IPvFuture pattern; otherwise `ipaddress.ip_address` must accept it
(IPv4 first — which is then rejected as not bracketable — else IPv6). -/
def checkBracketedHost (h : List Char) : Except String Unit :=
  if startsWithL "v".data h then
    if ipvFutureOk h then .ok () else .error "IPvFuture address is invalid"
  else if isIPv4Addr h then .error "An IPv4 address cannot be in brackets"
  else if isIPv6Addr h then .ok ()
  else .error (pyReprStr h ++ " does not appear to be an IPv4 or IPv6 address")

/-- `netloc.partition('[')[2].partition(']')[0]`: what lies after the first
`[` and before the next `]`. -/
def bracketedHost (netloc : List Char) : List Char :=
  ((netloc.dropWhile (fun c => !(c == '['))).drop 1).takeWhile (fun c => !(c == ']'))

/-- The bracket checks of `urlsplit`'s `//` branch: a `[` without `]` (or
vice versa) raises `"Invalid IPv6 URL"`; with both present the bracketed
host is validated. -/
def bracketCheck (netloc : List Char) : Except String Unit :=
  if (netloc.contains '[' && !netloc.contains ']')
      || (netloc.contains ']' && !netloc.contains '[') then
    .error "Invalid IPv6 URL"
  else if netloc.contains '[' && netloc.contains ']' then
    checkBracketedHost (bracketedHost netloc)
  else .ok ()

/-- Python `str.isascii()`. -/
def pyIsAsciiL (l : List Char) : Bool := l.all (fun c => decide (c.toNat ≤ 127))

/-- `_checknetloc` (urllib/parse.py): empty or all-ASCII netlocs pass
without consulting the normalizer; otherwise the netloc minus `@:#?` is NFKC
normalized and the result must not have acquired one of `/?#@:`.  `nfkc`
stands for `unicodedata.normalize('NFKC', ·)`. -/
def checknetloc (nfkc : List Char → List Char) (netloc : List Char) :
    Except String Unit :=
  if netloc.isEmpty || pyIsAsciiL netloc then .ok ()
  else
    let n := netloc.filter (fun c => !(c == '@' || c == ':' || c == '#' || c == '?'))
    let n2 := nfkc n
    if n == n2 then .ok ()
    else if n2.any (fun c => c == '/' || c == '?' || c == '#' || c == '@' || c == ':')
    then
      .error ("netloc " ++ sq ++ String.mk netloc ++ sq
        ++ " contains invalid characters under NFKC normalization")
    else .ok ()

/-- The NFKC normalizer instance used for concrete evaluation on ASCII
inputs: NFKC is the identity on ASCII text, and `checknetloc` consults the
normalizer only for non-ASCII netlocs, so every faithful instance agrees
with this one on any input whose netloc is ASCII. -/
def nfkcAscii : List Char → List Char := fun l => l

/-- CPython 3.11.6 `urlsplit` with its `ValueError` paths: the components of
`urlsplitL`, guarded by the bracket checks and `_checknetloc` on the netloc.
In the source the bracket checks run inside the `//` branch — the only one
that sets a netloc, the others leaving it `''`, on which every check passes
— so checking the computed netloc unconditionally is the same function; the
fragment and query splits that the source interleaves do not touch the
netloc. -/
def urlsplitE (nfkc : List Char → List Char) (dscheme url0 : List Char) :
    Except String UrlSplit :=
  let r := urlsplitL dscheme url0
  match bracketCheck r.netloc with
  | .error e => .error e
  | .ok _ =>
    match checknetloc nfkc r.netloc with
    | .error e => .error e
    | .ok _ => .ok r

/-- `is_valid_url` (url_utils.py lines 15-23): `urlparse` runs inside `try`
and the bare `except` turns its `ValueError`s — the bracket and NFKC netloc
checks — into `False`; when it returns, both netloc and scheme must be
non-empty. -/
def is_valid_urlL (nfkc : List Char → List Char) (u : List Char) : Bool :=
  match urlsplitE nfkc [] u with
  | .error _ => false
  | .ok r => !r.netloc.isEmpty && !r.scheme.isEmpty

/-- `is_valid_url` on a `String`. -/
def is_valid_url (nfkc : List Char → List Char) (s : String) : Bool :=
  is_valid_urlL nfkc s.data

/-! ### The URL-extraction regex (url_utils.py line 10)

`http[s]?://(?:[a-zA-Z]|[0-9]|[$-_@.&+]|[!*\(\),]|(?:%[0-9a-fA-F][0-9a-fA-F]))+`

`[$-_@.&+]` is the character range 0x24-0x5F plus `@.&+` (all already inside
the range); since `%` (0x25) is inside the range as well, the two-hex-digit
alternative never matches anything a single `%` does not, so each repetition
of the group consumes exactly one character of the union class, and a match
is a maximal run of class characters after the literal prefix. -/

/-- The character class of the URL regex body. -/
def urlChar (c : Char) : Bool :=
  c.isAlpha || c.isDigit || (decide (36 ≤ c.toNat) && decide (c.toNat ≤ 95))
    || c == '!' || c == '*' || c == '\\' || c == '(' || c == ')' || c == ','

/-- The greedy `(...)+` tail of the URL regex after a matched literal prefix:
the maximal run of class characters, failing on an empty run. -/
def urlTail (pfx rest : List Char) : Option (List Char × List Char) :=
  if (rest.takeWhile urlChar).isEmpty then none
  else some (pfx ++ rest.takeWhile urlChar, rest.dropWhile urlChar)

/-- One attempted regex match at the start of `s`: the greedy `[s]?` branch
first (`https://`), then the backtracked branch (`http://`); both fail when
no class character follows, exactly as the regex engine does. -/
def matchUrlAt (s : List Char) : Option (List Char × List Char) :=
  if startsWithL "https://".data s then urlTail "https://".data (s.drop 8)
  else if startsWithL "http://".data s then urlTail "http://".data (s.drop 7)
  else none

theorem startsWithL_decomp {pfx s : List Char} (h : startsWithL pfx s = true) :
    s = pfx ++ s.drop pfx.length := by
  rw [startsWithL, List.isPrefixOf_iff_prefix] at h
  obtain ⟨t, ht⟩ := h
  conv_lhs => rw [← ht]
  rw [← ht, List.drop_left]

theorem urlTail_some {pfx rest : List Char} {m r : List Char}
    (h : urlTail pfx rest = some (m, r)) :
    m = pfx ++ rest.takeWhile urlChar ∧ r = rest.dropWhile urlChar
      ∧ rest.takeWhile urlChar ≠ [] := by
  rw [urlTail] at h
  by_cases he : (rest.takeWhile urlChar).isEmpty = true
  · rw [if_pos he] at h
    exact absurd h (by simp)
  · rw [if_neg he] at h
    have := Option.some_injective _ h
    refine ⟨(congrArg Prod.fst this).symm, (congrArg Prod.snd this).symm, ?_⟩
    simpa [List.isEmpty_iff] using he

theorem matchUrlAt_some {s : List Char} {m r : List Char}
    (h : matchUrlAt s = some (m, r)) :
    ∃ pfx, (pfx = "http://".data ∨ pfx = "https://".data)
      ∧ s = pfx ++ s.drop pfx.length
      ∧ m = pfx ++ (s.drop pfx.length).takeWhile urlChar
      ∧ r = (s.drop pfx.length).dropWhile urlChar
      ∧ (s.drop pfx.length).takeWhile urlChar ≠ [] := by
  rw [matchUrlAt] at h
  by_cases h1 : startsWithL "https://".data s = true
  · rw [if_pos h1] at h
    have hd := urlTail_some h
    refine ⟨"https://".data, Or.inr rfl, ?_, ?_, ?_, ?_⟩
    · exact startsWithL_decomp h1
    · simpa using hd.1
    · simpa using hd.2.1
    · simpa using hd.2.2
  · rw [if_neg h1] at h
    by_cases h2 : startsWithL "http://".data s = true
    · rw [if_pos h2] at h
      have hd := urlTail_some h
      refine ⟨"http://".data, Or.inl rfl, ?_, ?_, ?_, ?_⟩
      · exact startsWithL_decomp h2
      · simpa using hd.1
      · simpa using hd.2.1
      · simpa using hd.2.2
    · rw [if_neg h2] at h
      exact absurd h (by simp)

theorem matchUrlAt_append {s : List Char} {m r : List Char}
    (h : matchUrlAt s = some (m, r)) : s = m ++ r ∧ m ≠ [] := by
  obtain ⟨pfx, hpfx, hs, hm, hr, hne⟩ := matchUrlAt_some h
  constructor
  · rw [hm, hr, List.append_assoc, List.takeWhile_append_dropWhile]
    exact hs
  · rw [hm]
    rcases hpfx with h' | h' <;> simp [h']

theorem matchUrlAt_length {s : List Char} {m r : List Char}
    (h : matchUrlAt s = some (m, r)) : r.length < s.length := by
  obtain ⟨hs, hm⟩ := matchUrlAt_append h
  rw [hs, List.length_append]
  have : 0 < m.length := List.length_pos.mpr hm
  omega

/-- The scan loop of `re.findall` with the URL pattern, written with explicit
fuel (one unit per scanned position, which `matchUrlAt_length` shows
suffices) so that it is structurally recursive and kernel-evaluable. -/
def findUrlsFuel : Nat → List Char → List (List Char)
  | 0, _ => []
  | _ + 1, [] => []
  | fuel + 1, c :: cs =>
    match matchUrlAt (c :: cs) with
    | some (m, rest) => m :: findUrlsFuel fuel rest
    | none => findUrlsFuel fuel cs

/-- `re.findall` with the URL pattern (url_utils.py, `extract_urls_from_text`,
lines 5-13): scan left to right, emit each leftmost match and continue after
it, else advance one character. -/
def findUrls (s : List Char) : List (List Char) := findUrlsFuel s.length s

theorem findUrlsFuel_congr : ∀ (f1 : Nat) (s : List Char) (f2 : Nat),
    s.length ≤ f1 → s.length ≤ f2 → findUrlsFuel f1 s = findUrlsFuel f2 s := by
  intro f1
  induction f1 with
  | zero =>
    intro s f2 h1 _
    have hs : s = [] := List.eq_nil_of_length_eq_zero (Nat.le_zero.mp h1)
    subst hs
    cases f2 <;> rfl
  | succ f1 ih =>
    intro s f2 h1 h2
    cases s with
    | nil => cases f2 <;> rfl
    | cons c cs =>
      cases f2 with
      | zero => simp [List.length_cons] at h2
      | succ f2 =>
        rw [findUrlsFuel, findUrlsFuel]
        cases hm : matchUrlAt (c :: cs) with
        | some p =>
          obtain ⟨m, rest⟩ := p
          have hr := matchUrlAt_length hm
          have hr1 : rest.length ≤ f1 := by
            simp [List.length_cons] at h1 hr
            omega
          have hr2 : rest.length ≤ f2 := by
            simp [List.length_cons] at h2 hr
            omega
          dsimp only
          rw [ih rest f2 hr1 hr2]
        | none =>
          have hc1 : cs.length ≤ f1 := by simp [List.length_cons] at h1; omega
          have hc2 : cs.length ≤ f2 := by simp [List.length_cons] at h2; omega
          dsimp only
          rw [ih cs f2 hc1 hc2]

theorem findUrls_nil : findUrls [] = [] := rfl

theorem findUrls_cons (c : Char) (cs : List Char) :
    findUrls (c :: cs) = match matchUrlAt (c :: cs) with
      | some (m, rest) => m :: findUrls rest
      | none => findUrls cs := by
  rw [findUrls, List.length_cons, findUrlsFuel]
  cases hm : matchUrlAt (c :: cs) with
  | some p =>
    obtain ⟨m, rest⟩ := p
    have hr := matchUrlAt_length hm
    dsimp only
    rw [findUrls, findUrlsFuel_congr cs.length rest rest.length
      (by simp [List.length_cons] at hr; omega) (Nat.le_refl _)]
  | none =>
    dsimp only
    rw [findUrls]

/-- `extract_urls_from_text` on a `String`. -/
def extract_urls_from_text (s : String) : List String :=
  (findUrls s.data).map String.mk

/-- `is_url_only_text` (url_utils.py lines 61-80): empty or whitespace-only
text (full Unicode `str.strip()`) is not URL-only; otherwise the trimmed
text must be valid per `is_valid_url` and equal to the single hit of the
extraction regex, and its normalization is returned. -/
def is_url_only_textL (nfkc : List Char → List Char) (t : List Char) :
    Option (List Char) :=
  let cleaned := pyStripU t
  if cleaned.isEmpty then none
  else if is_valid_urlL nfkc cleaned then
    match findUrls cleaned with
    | [u] => if u = cleaned then some (normalize_urlL cleaned) else none
    | _ => none
  else none

/-- `is_url_only_text` on a `String`. -/
def is_url_only_text (nfkc : List Char → List Char) (t : String) : Option String :=
  (is_url_only_textL nfkc t.data).map String.mk

/-! ### The image regex (workflow_orchestrator.py line 265)

`<img[^>]+src=["\']([^"\']+)["\']` with `re.IGNORECASE`: literal `<img`
(case-insensitive), a greedy non-`>` run backtracked until `src=` followed by
a quote, a non-empty group of non-quote characters, and a closing quote
(either kind).  `re.findall` returns the group. -/

/-- The single-quote character. -/
def squot : Char := Char.ofNat 39

/-- A double or single quote (the regex class `["\']`). -/
def isQuote (c : Char) : Bool := c == '"' || c == squot

/-- Case-insensitive literal match: `ciPrefix pat s` returns the rest of `s`
after the (lower-case) pattern `pat`, or `none`. -/
def ciPrefix : List Char → List Char → Option (List Char)
  | [], s => some s
  | _ :: _, [] => none
  | p :: ps, c :: cs => if c.toLower == p then ciPrefix ps cs else none

/-- The `src=["\']([^"\']+)["\']` part of the image regex, attempted at a
fixed position: returns the group and the rest after the closing quote. -/
def trySrcAt (s : List Char) : Option (List Char × List Char) :=
  match ciPrefix "src=".data s with
  | none => none
  | some r =>
    match r with
    | [] => none
    | q :: rest =>
      if isQuote q then
        let g := rest.takeWhile (fun c => !isQuote c)
        if g.isEmpty then none
        else
          match rest.dropWhile (fun c => !isQuote c) with
          | c :: r3 => if isQuote c then some (g, r3) else none
          | [] => none
      else none

/-- The backtracking over the greedy `[^>]+`: try the largest consumed length
first, down to one character. -/
def imgSearchBack (r1 : List Char) : Nat → Option (List Char × List Char)
  | 0 => none
  | k + 1 =>
    match trySrcAt (r1.drop (k + 1)) with
    | some res => some res
    | none => imgSearchBack r1 k

/-- One attempted image-regex match at the start of `s`. -/
def matchImgAt (s : List Char) : Option (List Char × List Char) :=
  match ciPrefix "<img".data s with
  | none => none
  | some r1 => imgSearchBack r1 ((r1.takeWhile (fun c => !(c == '>'))).length)

theorem ciPrefix_length {p s r : List Char} (h : ciPrefix p s = some r) :
    r.length + p.length = s.length := by
  induction p generalizing s with
  | nil =>
    cases s with
    | nil => simp [ciPrefix] at h; simp [h]
    | cons c cs => simp [ciPrefix] at h; simp [h]
  | cons p ps ih =>
    cases s with
    | nil => simp [ciPrefix] at h
    | cons c cs =>
      rw [ciPrefix] at h
      by_cases hc : (c.toLower == p) = true
      · rw [if_pos hc] at h
        have := ih h
        simp [List.length_cons]
        omega
      · rw [if_neg hc] at h
        exact absurd h (by simp)

theorem dropWhile_length_le {α : Type} (p : α → Bool) (l : List α) :
    (l.dropWhile p).length ≤ l.length := by
  induction l with
  | nil => simp
  | cons c cs ih =>
    rw [List.dropWhile_cons]
    by_cases hc : p c = true
    · rw [if_pos hc]
      simp [List.length_cons]
      omega
    · rw [if_neg hc]

theorem trySrcAt_length {s : List Char} {g r3 : List Char}
    (h : trySrcAt s = some (g, r3)) : r3.length < s.length := by
  rw [trySrcAt] at h
  cases hc : ciPrefix "src=".data s with
  | none => rw [hc] at h; exact absurd h (by simp)
  | some r =>
    rw [hc] at h
    have hlen := ciPrefix_length hc
    cases r with
    | nil => exact absurd h (by simp)
    | cons q rest =>
      dsimp only at h
      by_cases hq : isQuote q = true
      · rw [if_pos hq] at h
        by_cases hg : (rest.takeWhile (fun c => !isQuote c)).isEmpty = true
        · rw [if_pos hg] at h
          exact absurd h (by simp)
        · rw [if_neg hg] at h
          cases hd : rest.dropWhile (fun c => !isQuote c) with
          | nil => rw [hd] at h; exact absurd h (by simp)
          | cons c r3' =>
            rw [hd] at h
            dsimp only at h
            by_cases hcq : isQuote c = true
            · rw [if_pos hcq] at h
              have hr3 : r3' = r3 := congrArg Prod.snd (Option.some_injective _ h)
              have hdle : (rest.dropWhile (fun c => !isQuote c)).length ≤ rest.length :=
                dropWhile_length_le _ _
              rw [hd] at hdle
              rw [← hr3]
              simp [List.length_cons] at hdle hlen ⊢
              omega
            · rw [if_neg hcq] at h
              exact absurd h (by simp)
      · rw [if_neg hq] at h
        exact absurd h (by simp)

theorem imgSearchBack_length {r1 : List Char} {g r3 : List Char} :
    ∀ k, imgSearchBack r1 k = some (g, r3) → r3.length < r1.length := by
  intro k
  induction k with
  | zero => intro h; exact absurd h (by simp [imgSearchBack])
  | succ k ih =>
    intro h
    rw [imgSearchBack] at h
    cases ht : trySrcAt (r1.drop (k + 1)) with
    | none => rw [ht] at h; exact ih h
    | some res =>
      rw [ht] at h
      have hres : res = (g, r3) := Option.some_injective _ h
      rw [hres] at ht
      have h1 := trySrcAt_length ht
      have h2 : (r1.drop (k + 1)).length ≤ r1.length := by
        simp [List.length_drop]
      omega

theorem matchImgAt_length {s : List Char} {g rest : List Char}
    (h : matchImgAt s = some (g, rest)) : rest.length < s.length := by
  rw [matchImgAt] at h
  cases hc : ciPrefix "<img".data s with
  | none => rw [hc] at h; exact absurd h (by simp)
  | some r1 =>
    rw [hc] at h
    have h1 := imgSearchBack_length _ h
    have h2 := ciPrefix_length hc
    simp at h2
    omega

/-- The scan loop of `re.findall` with the image pattern, with explicit fuel
(one unit per scanned position, which `matchImgAt_length` shows suffices). -/
def findImgSrcsFuel : Nat → List Char → List (List Char)
  | 0, _ => []
  | _ + 1, [] => []
  | fuel + 1, c :: cs =>
    match matchImgAt (c :: cs) with
    | some (g, rest) => g :: findImgSrcsFuel fuel rest
    | none => findImgSrcsFuel fuel cs

/-- `re.findall` with the image pattern (scan left to right, continue after
each match). -/
def findImgSrcs (s : List Char) : List (List Char) := findImgSrcsFuel s.length s

/-- The value CPython 3.11 `urljoin` returns when its two `urlparse` calls
pass the validity checks (`urljoinL` adds those checks; urlsplit's params
are kept inside the path, see the section comment).  The dot-segment
resolution follows the source: drop the base path's last segment unless it
is empty, absolute references replace the base path, inner empty segments of
a merged path are filtered, `..` pops, `.` is skipped, and a trailing
`.`/`..` re-appends the trailing slash. -/
def urljoinRet (base url : List Char) : List Char :=
  if base.isEmpty then url
  else if url.isEmpty then base
  else
    let b := urlsplitL [] base
    let u := urlsplitL b.scheme url
    if ¬(u.scheme = b.scheme) ∨ ¬(usesRelative.contains u.scheme = true) then url
    else if usesNetloc.contains u.scheme && !u.netloc.isEmpty then
      urlunsplitL ⟨u.scheme, u.netloc, u.path, u.query, u.fragment⟩
    else
      let netloc := if usesNetloc.contains u.scheme then b.netloc else u.netloc
      if u.path.isEmpty then
        urlunsplitL ⟨u.scheme, netloc, b.path,
          (if u.query.isEmpty then b.query else u.query), u.fragment⟩
      else
        let bp := b.path.splitOn '/'
        let baseParts := if bp.getLast? ≠ some ([] : List Char) then bp.dropLast else bp
        let segs :=
          if u.path.head? = some '/' then u.path.splitOn '/'
          else
            match baseParts ++ u.path.splitOn '/' with
            | [] => []
            | h :: t =>
              match t.getLast? with
              | none => [h]
              | some last => h :: ((t.dropLast.filter (fun x => !x.isEmpty)) ++ [last])
        let resolved := segs.foldl (fun acc seg =>
          if seg = ['.', '.'] then acc.dropLast
          else if seg = ['.'] then acc
          else acc ++ [seg]) []
        let resolved :=
          if segs.getLast? = some ['.', '.'] ∨ segs.getLast? = some ['.'] then
            resolved ++ [([] : List Char)]
          else resolved
        let joined := List.intercalate ['/'] resolved
        urlunsplitL ⟨u.scheme, netloc, (if joined.isEmpty then ['/'] else joined),
          u.query, u.fragment⟩

/-- CPython 3.11.6 `urljoin`: empty base or url short-circuit, then the two
`urlparse` calls — `urlparse(base, '')` and `urlparse(url, bscheme)` — whose
`ValueError` checks run on each parse; when both pass, the join computed by
`urljoinRet`, whose internal parses see exactly the components the checked
parses returned. -/
def urljoinL (nfkc : List Char → List Char) (base url : List Char) :
    Except String (List Char) :=
  if base.isEmpty then .ok url
  else if url.isEmpty then .ok base
  else
    match urlsplitE nfkc [] base with
    | .error e => .error e
    | .ok b =>
      match urlsplitE nfkc b.scheme url with
      | .error e => .error e
      | .ok _ => .ok (urljoinRet base url)

/-- `urljoin` on `String`s. -/
def urljoin (nfkc : List Char → List Char) (base url : String) :
    Except String String :=
  (urljoinL nfkc base.data url.data).map String.mk

deriving instance DecidableEq for Except

/-- Mapping a fallible step over a list: the first error aborts the whole
loop, as an uncaught exception does. -/
def mapE {α β : Type} (f : α → Except String β) : List α → Except String (List β)
  | [] => .ok []
  | a :: as =>
    match f a with
    | .error e => .error e
    | .ok b =>
      match mapE f as with
      | .error e => .error e
      | .ok bs => .ok (b :: bs)

/-- `_extract_image_urls` (workflow_orchestrator.py lines 263-277): every
regex group, kept as-is when it starts with `http`, otherwise resolved
against the page URL with `urljoin` — whose `ValueError` propagates out of
the loop and aborts the extraction. -/
def extract_image_urls (nfkc : List Char → List Char) (html baseUrl : String) :
    Except String (List String) :=
  (mapE (fun m => if startsWithL "http".data m then .ok m
      else urljoinL nfkc baseUrl.data m) (findImgSrcs html.data)).map
    (fun l => l.map String.mk)

/-! ## The workflow orchestrator (app/core/workflow_orchestrator.py) and its
driving endpoint (app/api/endpoints.py, `run_scrape_endpoint`).

External collaborators are the fields of `Ext`: the scraper
(`scraper_service.scrape_url`), the field-extraction backend
(`llm_service.process_data`, declared `-> Dict[str, Any]` in
app/core/services.py), optical recognition (`ocr_service.extract_text`,
absent when the orchestrator was built without one), image downloading and
decoding, and the lazily loaded schema file content.  A Python call that may
raise is an `Except String` value; the caught exception message stands for
`str(e)`. -/

/-- A schema as consumed by the backend: field name, description, format
(the shape of event_details_schema.json and of the in-code fallback). -/
abbrev Schema : Type := List (String × String × String)

/-- A field map as returned by the backend (a JSON object). -/
abbrev FieldMap : Type := List (String × PyVal)

/-- One recorded call to the field-extraction backend. -/
structure LlmCall where
  text : String
  schema : Schema

/-- The external collaborators of the orchestrator; `Img` is the opaque
decoded-image type (PIL image).  `nfkc` is the Unicode NFKC normalization
table (`unicodedata.normalize`) that `urljoin`'s netloc check consults for
non-ASCII netlocs (see `checknetloc`). -/
structure Ext (Img : Type) where
  scrape : String → Except String String
  llm : String → Schema → Except String FieldMap
  ocr : Option (Img → Except String String)
  download : String → Except String Img
  openDataUri : String → Except String Img
  openBytes : List Nat → Except String Img
  schemaContent : Schema
  nfkc : List Char → List Char

/-- WorkflowResult (app/api/models.py lines 36-45). -/
structure WfResult where
  sourceType : String
  sourceContent : String
  extractedData : ERec
  discoveredUrls : Option (List String)
  errors : Option (List String)

/-- The image argument of `process_image_workflow`: a Python string (data
URI, http URL or other) or a binary payload. -/
inductive ImgInput where
  | pyStr (s : String)
  | pyBytes (b : List Nat)

/-- The hard-coded fallback schema used when the schema file cannot be read
(workflow_orchestrator.py lines 42-46; the final letter of the second
field name is the Arabic ain that appears in the source). -/
def fallbackSchema : Schema :=
  [("תאריך", "Event date", "DD.MM.YY"),
   ("שם_האירוع", "Event name", "text"),
   ("תוכן", "Event description", "text")]

/-- The message of the `AttributeError` raised when `_merge_event_data`
calls `.dict()` on the plain dict returned by `process_data`. -/
def attrErrMsg : String :=
  sq ++ "dict" ++ sq ++ " object has no attribute " ++ sq ++ "dict" ++ sq

/-- `text[:500] + "..." if len(text) > 500 else text`
(workflow_orchestrator.py lines 83 and 91). -/
def textPreview (t : String) : String :=
  if 500 < t.length then t.take 500 ++ "..." else t

/-- `f"OCR Text: {ocr_text[:200]}..."` / `f"OCR Text: {ocr_text}"`
(workflow_orchestrator.py line 187). -/
def ocrPreview (t : String) : String :=
  if 200 < t.length then "OCR Text: " ++ t.take 200 ++ "..." else "OCR Text: " ++ t

/-- `_dict_to_event_record` (workflow_orchestrator.py lines 49-61): keys that
are not EventRecord fields are dropped, missing fields default to None.  The
body's own try/except means it never raises; pydantic's value coercion is
not modelled. -/
def dictToEventRecord (m : FieldMap) : ERec :=
  fun f => (List.lookup (fieldName f) m).getD PyVal.vnone

/-- `process_text_workflow` (workflow_orchestrator.py lines 63-94).  Returns
the record (mutated in place in Python), the WorkflowResult, and the list of
backend calls made.  The body calls `process_data(text, {})` — the comment in
the source says "using empty dict as placeholder" — and then
`_merge_event_data(event_record, extracted_data)` with `extracted_data` the
plain dict `process_data` returns; a dict has no attribute `dict`, so the
merge raises `AttributeError` before touching any field, the surrounding
`except` returns the error result, and the depth-0 link-discovery block below
the merge is never reached. -/
def process_text_workflow {Img : Type} (ext : Ext Img) (text : String) (record : ERec)
    (_depth : Nat) : ERec × WfResult × List LlmCall :=
  let call : LlmCall := ⟨text, []⟩
  match ext.llm text [] with
  | .error e =>
    (record, ⟨"text", textPreview text, emptyRec, none, some [e]⟩, [call])
  | .ok _fields =>
    (record, ⟨"text", textPreview text, emptyRec, none, some [attrErrMsg]⟩, [call])

/-- The `any(getattr(extracted_data, field) for field in
['תאריך', 'שם_האירוע', 'משעה'])` check (workflow_orchestrator.py lines 117
and 181). -/
def relevantAny (r : ERec) : Bool :=
  [EField.date, EField.eventName, EField.fromTime].any (fun f => pyTruthy (r f))

/-- The image-acquisition step of `process_image_workflow`
(workflow_orchestrator.py lines 144-156): data URI, http URL, or raw bytes;
any other string raises `ValueError("Invalid image input format")`. -/
def acquireImage {Img : Type} (ext : Ext Img) : ImgInput → Except String Img
  | .pyStr s =>
    if startsWithL "data:image".data s.data then ext.openDataUri s
    else if startsWithL "http".data s.data then ext.download s
    else .error "Invalid image input format"
  | .pyBytes b => ext.openBytes b

/-- The OCR step (workflow_orchestrator.py lines 158-163): `""` when no OCR
service is configured. -/
def ocrRun {Img : Type} (ext : Ext Img) (img : Img) : Except String String :=
  match ext.ocr with
  | some f => f img
  | none => .ok ""

/-- `process_image_workflow` (workflow_orchestrator.py lines 138-197):
acquire the image, run OCR, return an empty result when no text is found,
otherwise extract fields with the full schema, convert, merge, and record the
image URL in the IMAGE slot when the extracted fragment carries a date, an
event name or a start time and the slot is still empty; every failure is
caught and returned as an error result. -/
def process_image_workflow {Img : Type} (ext : Ext Img) (input : ImgInput)
    (record : ERec) : ERec × WfResult :=
  match acquireImage ext input with
  | .error e => (record, ⟨"image", "Error processing image", emptyRec, none, some [e]⟩)
  | .ok img =>
    match ocrRun ext img with
    | .error e => (record, ⟨"image", "Error processing image", emptyRec, none, some [e]⟩)
    | .ok ocrText =>
      if (pyStrip ocrText).isEmpty then
        (record, ⟨"image", "No text found in image or OCR not available", emptyRec,
          none, none⟩)
      else
        match ext.llm ocrText ext.schemaContent with
        | .error e =>
          (record, ⟨"image", "Error processing image", emptyRec, none, some [e]⟩)
        | .ok m =>
          let extracted := dictToEventRecord m
          let r1 := mergeEventData record extracted
          let r2 :=
            match input with
            | .pyStr s =>
              if startsWithL "http".data s.data && relevantAny extracted
                  && !pyTruthy (r1 EField.image) then
                setField r1 EField.image (PyVal.vstr s)
              else r1
            | .pyBytes _ => r1
          (r2, ⟨"image", ocrPreview ocrText, extracted, none, none⟩)

/-- The image loop of `process_url_workflow` (workflow_orchestrator.py lines
113-121), applied to the already-sliced `image_urls[:3]`: each URL goes
through `process_image_workflow`, then the IMAGE slot is set when the
fragment is relevant and the slot still empty (`img_result.extracted_data`
is a pydantic model instance and therefore always truthy).  The per-image
try/except is vacuous here because `process_image_workflow` never raises.
Returns the record and the image URLs the pipeline was invoked on, in
order. -/
def imageFanout {Img : Type} (ext : Ext Img) : List String → ERec → ERec × List String
  | [], r => (r, [])
  | u :: us, r =>
    let step := process_image_workflow ext (.pyStr u) r
    let r2 :=
      if relevantAny step.2.extractedData && !pyTruthy (step.1 EField.image) then
        setField step.1 EField.image (PyVal.vstr u)
      else step.1
    let rest := imageFanout ext us r2
    (rest.1, u :: rest.2)

/-- `process_url_workflow` (workflow_orchestrator.py lines 96-136): scrape,
run the text workflow at the same depth, then at depth 0 extract the page's
image URLs — a `ValueError` from `urljoin` there escapes to the function's
outer `except`, which returns an error result with the image pipeline never
invoked — and process the first 3 of them; the result carries the text
result's extracted data and, at depth 0 only, its discovered URLs.  Returns
the record, the WorkflowResult, and the image URLs the image pipeline was
invoked on. -/
def process_url_workflow {Img : Type} (ext : Ext Img) (url : String) (record : ERec)
    (depth : Nat) : ERec × WfResult × List String :=
  match ext.scrape url with
  | .error e => (record, ⟨"url", url, emptyRec, none, some [e]⟩, [])
  | .ok content =>
    let tr := process_text_workflow ext content record depth
    if depth = 0 then
      match extract_image_urls ext.nfkc content url with
      | .error e => (tr.1, ⟨"url", url, emptyRec, none, some [e]⟩, [])
      | .ok imgs =>
        let ir := imageFanout ext (imgs.take 3) tr.1
        (ir.1, ⟨"url", url, tr.2.1.extractedData, tr.2.1.discoveredUrls, none⟩, ir.2)
    else
      (tr.1, ⟨"url", url, tr.2.1.extractedData, none, none⟩, [])

/-- The discovered-URL loop of `run_scrape_endpoint` (endpoints.py lines
304-310): every collected URL is run through `process_url_workflow` at depth
1 against the shared record, inside a per-URL try/except that logs and
continues (`process_url_workflow` itself never raises, so the except arm is a
second guard).  Returns the record and the appended results, in order. -/
def processDiscoveredUrls {Img : Type} (ext : Ext Img) :
    List String → ERec → ERec × List WfResult
  | [], r => (r, [])
  | u :: us, r =>
    let step := process_url_workflow ext u r 1
    let rest := processDiscoveredUrls ext us step.1
    (rest.1, step.2.1 :: rest.2)

/-! ## The field-extraction backend (app/llm_services/google_ai_llm.py):
the prompt construction of `GoogleAiService.process_data`, the part of the
backend the truncation claim is about; the model call and the JSON parse are
external. -/

/-- `formatted_schema` (google_ai_llm.py lines 27-29). -/
def formattedSchema (schema : Schema) : String :=
  String.intercalate ", "
    (schema.map (fun e => "[" ++ e.1 ++ ": " ++ e.2.1 ++ " (" ++ e.2.2 ++ ")]"))

/-- The prompt text before the inlined page text (google_ai_llm.py lines
32-40). -/
def googlePromptPre (schema : Schema) : String :=
  "\n        Analyze the below text content from a web page. \n        Extract and summarize the content into a JSON object with the following properties:\n        "
    ++ formattedSchema schema
    ++ ".\n\n        The final output must be a single JSON object. Do not include any other text or formatting.\n        It is important to assign the HttpUrl fields with the URL values from the text. \n        \n        Text Content:\n        "

/-- The prompt text after the inlined page text (google_ai_llm.py lines
41-42). -/
def googlePromptPost : String := " \n        "

/-- The prompt `GoogleAiService.process_data` sends: the backend inlines
`data[:3000]`, i.e. it truncates the text itself (google_ai_llm.py line
41). -/
def googleAiPrompt (schema : Schema) (data : String) : String :=
  googlePromptPre schema ++ data.take 3000 ++ googlePromptPost

/-! ## Claim theorems about the workflows -/

theorem process_text_fst {Img : Type} (ext : Ext Img) (text : String) (record : ERec)
    (depth : Nat) : (process_text_workflow ext text record depth).1 = record := by
  rw [process_text_workflow]
  cases ext.llm text [] <;> rfl

theorem process_text_calls {Img : Type} (ext : Ext Img) (text : String) (record : ERec)
    (depth : Nat) :
    (process_text_workflow ext text record depth).2.2 = [⟨text, []⟩] := by
  rw [process_text_workflow]
  cases ext.llm text [] <;> rfl

theorem process_text_urls {Img : Type} (ext : Ext Img) (text : String) (record : ERec)
    (depth : Nat) :
    (process_text_workflow ext text record depth).2.1.discoveredUrls = none := by
  rw [process_text_workflow]
  cases ext.llm text [] <;> rfl

theorem process_text_errs {Img : Type} (ext : Ext Img) (text : String) (record : ERec)
    (depth : Nat) :
    ((process_text_workflow ext text record depth).2.1.errors.getD []).length = 1 := by
  rw [process_text_workflow]
  cases ext.llm text [] <;> rfl

/-- C2: `process_text` at depth greater than 0 never returns discovered URLs,
whatever the text contains; link discovery runs only at depth 0 (in the code
as written the discovery block is below the merge step, which raises before
it, so the result carries no URLs at any depth — which implies the claim). -/
theorem text_depth_no_discovery {Img : Type} (ext : Ext Img) (text : String)
    (record : ERec) (depth : Nat) (_hd : 0 < depth) :
    (process_text_workflow ext text record depth).2.1.discoveredUrls = none :=
  process_text_urls ext text record depth

/-- A generic external environment for witnesses: scraper yields empty text,
the backend fails, no OCR. -/
def extU : Ext Unit :=
  ⟨fun _ => .ok "", fun _ _ => .error "boom", none,
   fun _ => .error "net", fun _ => .error "img", fun _ => .error "img", [],
   nfkcAscii⟩

theorem text_depth_no_discovery_witness :
    0 < 1 ∧ (process_text_workflow extU "see https://a.com/x" emptyRec 1).2.1.discoveredUrls
      = none :=
  ⟨by decide, text_depth_no_discovery extU "see https://a.com/x" emptyRec 1 (by decide)⟩

/-- C3: the endpoint's discovered-URL loop runs `process_url_workflow` at
depth 1 on every collected URL (one result per URL, in order), and an
individual failure — here a failing scrape, the only fallible step of a
depth-1 URL call — produces an error result for that URL while the rest of
the batch is processed exactly as if the failing URL were absent, against an
unchanged record (endpoints.py lines 304-310). -/
theorem discovered_urls_isolation {Img : Type} (ext : Ext Img) :
    (∀ (urls : List String) (r : ERec),
      (processDiscoveredUrls ext urls r).2.length = urls.length)
    ∧ (∀ (u : String) (us : List String) (r : ERec) (e : String),
        ext.scrape u = .error e →
        processDiscoveredUrls ext (u :: us) r
          = ((processDiscoveredUrls ext us r).1,
             WfResult.mk "url" u emptyRec none (some [e])
               :: (processDiscoveredUrls ext us r).2)) := by
  constructor
  · intro urls
    induction urls with
    | nil => intro r; rfl
    | cons u us ih =>
      intro r
      rw [processDiscoveredUrls]
      simp [List.length_cons, ih]
  · intro u us r e he
    rw [processDiscoveredUrls, process_url_workflow, he]

/-- C5 (supporting theorem for the code bug): whatever the backend and the
schema file hold, `process_text_workflow` calls the backend with the empty
schema — not the loaded schema content, which even in its in-code fallback
form is nonempty — leaves the shared record untouched (the merge step raises
`AttributeError` on the returned dict before copying any field), and returns
an error result instead of a merged one. -/
theorem text_workflow_empty_schema {Img : Type} (ext : Ext Img) (text : String)
    (record : ERec) (depth : Nat) :
    (process_text_workflow ext text record depth).2.2 = [⟨text, []⟩]
    ∧ (process_text_workflow ext text record depth).1 = record
    ∧ ((process_text_workflow ext text record depth).2.1.errors.getD []).length = 1
    ∧ ([] : Schema) ≠ fallbackSchema :=
  ⟨process_text_calls ext text record depth, process_text_fst ext text record depth,
   process_text_errs ext text record depth, by decide⟩

/-- A 3100-character text, used to show the core does not truncate. -/
def bigText : String := ⟨List.replicate 3100 'a'⟩

/-- C6 counterexample: on a 3100-character text the core submits the full
text to the backend (the recorded call carries `bigText` itself, not a
3000-character prefix), so the truncation is not the core's. -/
theorem core_truncation_refuted :
    (process_text_workflow extU bigText emptyRec 0).2.2 = [⟨bigText, []⟩]
    ∧ 3000 < bigText.length :=
  ⟨process_text_calls extU bigText emptyRec 0, by
    show 3000 < (List.replicate 3100 'a').length
    rw [List.length_replicate]
    omega⟩

/-- C6 amended: the core submits the raw text unchanged to the backend (the
single backend call of `process_text_workflow` carries the full text), and it
is the backend that truncates: the prompt `GoogleAiService.process_data`
builds inlines exactly the first 3000 characters of the submitted text
(google_ai_llm.py line 41, `{data[:3000]}`). -/
theorem backend_truncates {Img : Type} (ext : Ext Img) (text : String) (record : ERec)
    (depth : Nat) (schema : Schema) :
    ((process_text_workflow ext text record depth).2.2.map LlmCall.text) = [text]
    ∧ googleAiPrompt schema text
      = googlePromptPre schema ++ text.take 3000 ++ googlePromptPost := by
  refine ⟨?_, rfl⟩
  rw [process_text_calls ext text record depth]
  rfl

theorem imageFanout_calls {Img : Type} (ext : Ext Img) :
    ∀ (l : List String) (r : ERec), (imageFanout ext l r).2 = l := by
  intro l
  induction l with
  | nil => intro r; rfl
  | cons u us ih =>
    intro r
    rw [imageFanout]
    simp [ih]

/-- A page with four embedded images, one of whose `src` values `urljoin`
rejects: `"//[a"` puts a `[` with no `]` into the netloc position, and
`urlsplit` raises `ValueError("Invalid IPv6 URL")`. -/
def c7badHtml : String :=
  "<p><img src=\"http://h.co/a.png\"><img src=\"http://h.co/b.png\"><img src=\"http://h.co/c.png\"><img src=\"//[a\"></p>"

/-- The environment whose scraper serves the four-image page. -/
def extC7bad : Ext Unit :=
  ⟨fun _ => .ok c7badHtml, fun _ _ => .error "boom", none,
   fun _ => .error "net", fun _ => .error "img", fun _ => .error "img", [],
   nfkcAscii⟩

set_option maxRecDepth 4000 in
/-- C7 counterexample: a scraped page can hold 3 or more embedded images
(here 4) and still produce zero image-pipeline invocations — the fourth
`src`, `"//[a"`, makes `urljoin` raise inside `_extract_image_urls`, the
workflow's `except` turns that into an error result, and no image is
processed; so "when n >= 3 the image pipeline is invoked exactly 3 times"
fails on this page. -/
theorem url_image_cap_refuted :
    (findImgSrcs c7badHtml.data).length = 4
    ∧ extract_image_urls nfkcAscii c7badHtml "http://h.co/p/"
        = .error "Invalid IPv6 URL"
    ∧ (process_url_workflow extC7bad "http://h.co/p/" emptyRec 0).2.2 = []
    ∧ (process_url_workflow extC7bad "http://h.co/p/" emptyRec 0).2.1.errors
        = some ["Invalid IPv6 URL"] := by decide

/-- C7 amended: when the image-URL extraction returns (none of the relative
`src` values makes `urljoin` raise), a depth-0 `process_url_workflow` call on
a successfully scraped page invokes the image pipeline on exactly the first
3 extracted image URLs, in discovery order — exactly 3 invocations when the
page yields 3 or more; when the extraction raises instead, the pipeline is
not invoked at all and an error result is returned
(workflow_orchestrator.py lines 107-121, `image_urls[:3]`). -/
theorem url_image_cap_amended {Img : Type} (ext : Ext Img) (url : String)
    (record : ERec) (content : String) (imgs : List String)
    (hs : ext.scrape url = .ok content)
    (he : extract_image_urls ext.nfkc content url = .ok imgs) :
    (process_url_workflow ext url record 0).2.2 = imgs.take 3
    ∧ (3 ≤ imgs.length →
        (process_url_workflow ext url record 0).2.2.length = 3) := by
  have h1 : (process_url_workflow ext url record 0).2.2 = imgs.take 3 := by
    rw [process_url_workflow, hs]
    simp [he, imageFanout_calls]
  refine ⟨h1, fun h3 => ?_⟩
  rw [h1, List.length_take]
  omega

/-- A page with five embedded images, for the C7 witness. -/
def c7html : String :=
  "<p><img src=\"http://h.co/a.png\"><img src=\"http://h.co/b.png\"><img src=\"img/c.png\"><img src=\"http://h.co/d.png\"><img src=\"http://h.co/e.png\"></p>"

/-- The environment whose scraper serves the five-image page. -/
def extC7 : Ext Unit :=
  ⟨fun _ => .ok c7html, fun _ _ => .error "boom", none,
   fun _ => .error "net", fun _ => .error "img", fun _ => .error "img", [],
   nfkcAscii⟩

/-- The five image URLs the model extracts from `c7html` (the third one is
`img/c.png` resolved against the page URL). -/
def c7imgs : List String :=
  ["http://h.co/a.png", "http://h.co/b.png", "http://h.co/p/img/c.png",
   "http://h.co/d.png", "http://h.co/e.png"]

set_option maxRecDepth 4000 in
theorem url_image_cap_amended_witness :
    extC7.scrape "http://h.co/p/" = .ok c7html
    ∧ extract_image_urls extC7.nfkc c7html "http://h.co/p/" = .ok c7imgs
    ∧ 3 ≤ c7imgs.length
    ∧ ((process_url_workflow extC7 "http://h.co/p/" emptyRec 0).2.2 = c7imgs.take 3
      ∧ (3 ≤ c7imgs.length →
          (process_url_workflow extC7 "http://h.co/p/" emptyRec 0).2.2.length = 3)) :=
  ⟨rfl, by decide, by decide,
   url_image_cap_amended extC7 "http://h.co/p/" emptyRec c7html c7imgs rfl
     (by decide)⟩

/-- The failure condition of C8: the image-acquisition step, the OCR step or
the field-extraction backend raises inside `process_image_workflow`. -/
def imagePipelineFails {Img : Type} (ext : Ext Img) (input : ImgInput) : Bool :=
  match acquireImage ext input with
  | .error _ => true
  | .ok img =>
    match ocrRun ext img with
    | .error _ => true
    | .ok t =>
      if (pyStrip t).isEmpty then false
      else
        match ext.llm t ext.schemaContent with
        | .error _ => true
        | .ok _ => false

/-- C8: when the image extractor or the backend throws during
`process_image_workflow`, the call does not raise: it returns a
WorkflowResult with a non-empty (one-element) error list and the shared
record is unchanged by the call (workflow_orchestrator.py lines 138-197; all
three fallible steps precede the merge). -/
theorem image_failure_isolated {Img : Type} (ext : Ext Img) (input : ImgInput)
    (r : ERec) (h : imagePipelineFails ext input = true) :
    (process_image_workflow ext input r).1 = r
    ∧ ((process_image_workflow ext input r).2.errors.getD []).length = 1 := by
  rw [imagePipelineFails] at h
  rw [process_image_workflow]
  cases ha : acquireImage ext input with
  | error e => exact ⟨rfl, rfl⟩
  | ok img =>
    rw [ha] at h
    dsimp only at h ⊢
    cases ho : ocrRun ext img with
    | error e => exact ⟨rfl, rfl⟩
    | ok t =>
      rw [ho] at h
      dsimp only at h ⊢
      by_cases hstrip : (pyStrip t).isEmpty = true
      · rw [if_pos hstrip] at h
        exact absurd h (by simp)
      · rw [if_neg hstrip] at h ⊢
        cases hl : ext.llm t ext.schemaContent with
        | error e => exact ⟨rfl, rfl⟩
        | ok m =>
          rw [hl] at h
          exact absurd h (by simp)

/-- The environment for the C8 witness: image download fails. -/
def extW8 : Ext Unit :=
  ⟨fun _ => .ok "", fun _ _ => .error "llm down", some (fun _ => .ok "some text"),
   fun _ => .error "download failed", fun _ => .ok (), fun _ => .ok (), [],
   nfkcAscii⟩

theorem image_failure_isolated_witness :
    imagePipelineFails extW8 (ImgInput.pyStr "http://img.png") = true
    ∧ ((process_image_workflow extW8 (ImgInput.pyStr "http://img.png") emptyRec).1
        = emptyRec
      ∧ ((process_image_workflow extW8 (ImgInput.pyStr "http://img.png")
          emptyRec).2.errors.getD []).length = 1) :=
  ⟨by decide, image_failure_isolated extW8 (ImgInput.pyStr "http://img.png") emptyRec
    (by decide)⟩

theorem pyEmptyCell_vstr {v : String} (hv : v ≠ "") :
    pyEmptyCell (PyVal.vstr v) = false := by
  simp [pyEmptyCell, hv]

theorem pyTruthy_vstr {v : String} (hv : v ≠ "") :
    pyTruthy (PyVal.vstr v) = true := by
  simp [pyTruthy, hv]

theorem merge_preserves_image (t s : ERec) {v : String} (hv : v ≠ "")
    (h : t EField.image = PyVal.vstr v) :
    mergeEventData t s EField.image = PyVal.vstr v := by
  rw [mergeEventData_field t s EField.image (by decide), mergeCell, h]
  by_cases hp : pyPresent (s EField.image) = true
  · rw [if_pos hp, if_neg (by rw [pyEmptyCell_vstr hv]; simp)]
  · rw [if_neg hp]

theorem processImage_preserves_image {Img : Type} (ext : Ext Img) (input : ImgInput)
    (r : ERec) {v : String} (hv : v ≠ "") (h : r EField.image = PyVal.vstr v) :
    (process_image_workflow ext input r).1 EField.image = PyVal.vstr v := by
  rw [process_image_workflow]
  cases ha : acquireImage ext input with
  | error e => exact h
  | ok img =>
    dsimp only
    cases ho : ocrRun ext img with
    | error e => exact h
    | ok t =>
      dsimp only
      by_cases hstrip : (pyStrip t).isEmpty = true
      · rw [if_pos hstrip]
        exact h
      · rw [if_neg hstrip]
        cases hl : ext.llm t ext.schemaContent with
        | error e => exact h
        | ok m =>
          dsimp only
          have h1 : mergeEventData r (dictToEventRecord m) EField.image = PyVal.vstr v :=
            merge_preserves_image r _ hv h
          cases input with
          | pyBytes b => exact h1
          | pyStr s =>
            dsimp only
            rw [h1, pyTruthy_vstr hv]
            simpa using h1

theorem imageFanout_preserves_image {Img : Type} (ext : Ext Img) :
    ∀ (l : List String) (r : ERec) {v : String}, v ≠ "" →
      r EField.image = PyVal.vstr v →
      (imageFanout ext l r).1 EField.image = PyVal.vstr v := by
  intro l
  induction l with
  | nil => intro r v _ h; exact h
  | cons u us ih =>
    intro r v hv h
    rw [imageFanout]
    have hstep : (process_image_workflow ext (.pyStr u) r).1 EField.image
        = PyVal.vstr v := processImage_preserves_image ext _ r hv h
    dsimp only
    rw [hstep, pyTruthy_vstr hv]
    simp only [Bool.not_true, Bool.and_false, Bool.false_eq_true, if_false]
    exact ih _ hv hstep

theorem processUrl_preserves_image {Img : Type} (ext : Ext Img) (url : String)
    (r : ERec) (depth : Nat) {v : String} (hv : v ≠ "")
    (h : r EField.image = PyVal.vstr v) :
    (process_url_workflow ext url r depth).1 EField.image = PyVal.vstr v := by
  rw [process_url_workflow]
  cases hs : ext.scrape url with
  | error e => exact h
  | ok content =>
    dsimp only
    have htext : (process_text_workflow ext content r depth).1 = r :=
      process_text_fst ext content r depth
    by_cases hd : depth = 0
    · rw [if_pos hd]
      cases he : extract_image_urls ext.nfkc content url with
      | error e =>
        dsimp only
        rw [htext]
        exact h
      | ok imgs =>
        dsimp only
        rw [htext]
        exact imageFanout_preserves_image ext _ r hv h
    · rw [if_neg hd, htext]
      exact h

/-- One top-level workflow invocation against the shared record: an image
call or a URL call. -/
inductive WOp where
  | img (input : ImgInput)
  | url (u : String) (depth : Nat)

/-- The record after one workflow invocation. -/
def opStep {Img : Type} (ext : Ext Img) (op : WOp) (r : ERec) : ERec :=
  match op with
  | .img i => (process_image_workflow ext i r).1
  | .url u d => (process_url_workflow ext u r d).1

/-- A sequence of `process_image_workflow` / `process_url_workflow` calls
against the same shared record, as the endpoint performs them. -/
def runOps {Img : Type} (ext : Ext Img) : List WOp → ERec → ERec
  | [], r => r
  | op :: ops, r => runOps ext ops (opStep ext op r)

/-- C9: once the record's IMAGE field holds a non-empty value, no later
image or URL processing in the same request changes it: every site that
writes IMAGE is guarded by `if not event_record.IMAGE`
(workflow_orchestrator.py lines 118 and 182) and the merge never overwrites
a non-empty field — so only the first image that supplies a date, an event
name or a start time can claim the slot. -/
theorem image_slot_write_once {Img : Type} (ext : Ext Img) (ops : List WOp)
    (r : ERec) (v : String) (hv : v ≠ "") (h : r EField.image = PyVal.vstr v) :
    runOps ext ops r EField.image = PyVal.vstr v := by
  induction ops generalizing r with
  | nil => exact h
  | cons op ops ih =>
    rw [runOps]
    cases op with
    | img i => exact ih _ (processImage_preserves_image ext i r hv h)
    | url u d => exact ih _ (processUrl_preserves_image ext u r d hv h)


/-- The environment for the C9 witness: the scraper serves a page with an
image, OCR reads text, and the backend returns a date and an IMAGE value, so
the run exercises the guarded writes. -/
def extW9 : Ext Unit :=
  ⟨fun _ => .ok "<img src=\"http://h/i2.png\">",
   fun _ _ => .ok [("תאריך", PyVal.vstr "03.03.25"),
                   ("IMAGE", PyVal.vstr "http://llm/img.png")],
   some (fun _ => .ok "flyer text"), fun _ => .ok (), fun _ => .ok (),
   fun _ => .ok (), fallbackSchema, nfkcAscii⟩

/-- The record whose IMAGE slot is already taken, for the C9 witness. -/
def c9rec : ERec := setField emptyRec EField.image (PyVal.vstr "http://first/img.png")

theorem image_slot_write_once_witness :
    ("http://first/img.png" ≠ "" ∧ c9rec EField.image
        = PyVal.vstr "http://first/img.png")
    ∧ runOps extW9
        [WOp.img (ImgInput.pyStr "http://h/i1.png"), WOp.url "http://h/page" 0]
        c9rec EField.image
      = PyVal.vstr "http://first/img.png" :=
  ⟨⟨by decide, rfl⟩,
   image_slot_write_once extW9
     [WOp.img (ImgInput.pyStr "http://h/i1.png"), WOp.url "http://h/page" 0]
     c9rec "http://first/img.png" (by decide) rfl⟩

/-! ## List and character lemmas for the URL proofs -/

theorem takeWhile_cons_false {α : Type} {p : α → Bool} {c : α} (l : List α)
    (h : p c = false) : (c :: l).takeWhile p = [] := by
  rw [List.takeWhile_cons, h]
  rfl

theorem dropWhile_cons_false {α : Type} {p : α → Bool} {c : α} (l : List α)
    (h : p c = false) : (c :: l).dropWhile p = c :: l := by
  rw [List.dropWhile_cons, h]
  rfl

theorem takeWhile_append_all {α : Type} {p : α → Bool} {a : List α} (b : List α)
    (h : a.all p = true) : (a ++ b).takeWhile p = a ++ b.takeWhile p := by
  induction a with
  | nil => simp
  | cons c cs ih =>
    simp only [List.all_cons, Bool.and_eq_true] at h
    rw [List.cons_append, List.takeWhile_cons, h.1, List.cons_append, ih h.2]
    rfl

theorem dropWhile_append_all {α : Type} {p : α → Bool} {a : List α} (b : List α)
    (h : a.all p = true) : (a ++ b).dropWhile p = b.dropWhile p := by
  induction a with
  | nil => simp
  | cons c cs ih =>
    simp only [List.all_cons, Bool.and_eq_true] at h
    rw [List.cons_append, List.dropWhile_cons, h.1, ih h.2]
    rfl

theorem takeWhile_all {α : Type} (p : α → Bool) (l : List α) :
    (l.takeWhile p).all p = true := by
  induction l with
  | nil => simp
  | cons c cs ih =>
    rw [List.takeWhile_cons]
    by_cases hc : p c = true
    · rw [hc]
      simp [hc, ih]
    · simp at hc
      rw [hc]
      simp

theorem mem_takeWhile {α : Type} {p : α → Bool} {x : α} :
    ∀ {l : List α}, x ∈ l.takeWhile p → x ∈ l := by
  intro l
  induction l with
  | nil => simp
  | cons c cs ih =>
    rw [List.takeWhile_cons]
    by_cases hc : p c = true
    · rw [hc]
      simp only [if_true, List.mem_cons]
      rintro (h | h)
      · exact Or.inl h
      · exact Or.inr (ih h)
    · simp at hc
      rw [hc]
      simp

theorem mem_dropWhile {α : Type} {p : α → Bool} {x : α} :
    ∀ {l : List α}, x ∈ l.dropWhile p → x ∈ l := by
  intro l
  induction l with
  | nil => simp
  | cons c cs ih =>
    rw [List.dropWhile_cons]
    by_cases hc : p c = true
    · rw [hc]
      simp only [if_true, List.mem_cons]
      intro h
      exact Or.inr (ih h)
    · simp at hc
      rw [hc]
      simp

theorem dropWhile_head_false {α : Type} {p : α → Bool} {c : α} {d : List α} :
    ∀ {l : List α}, l.dropWhile p = c :: d → p c = false := by
  intro l
  induction l with
  | nil =>
    intro h
    rw [List.dropWhile_nil] at h
    exact absurd h (by simp)
  | cons a as ih =>
    rw [List.dropWhile_cons]
    by_cases ha : p a = true
    · rw [ha]
      simp only [if_true]
      exact ih
    · simp at ha
      rw [ha]
      rw [if_neg Bool.false_ne_true]
      intro h
      rw [← (List.cons.injEq _ _ _ _).mp h |>.1]
      exact ha

theorem filter_all {α : Type} (p : α → Bool) (l : List α) :
    (l.filter p).all p = true := by
  rw [List.all_eq_true]
  intro x hx
  exact (List.mem_filter.mp hx).2

theorem breakAtFirst_some {d : Char} :
    ∀ {s a b : List Char}, breakAtFirst d s = some (a, b) →
      s = a ++ d :: b ∧ d ∉ a := by
  intro s
  induction s with
  | nil => intro a b h; exact absurd h (by simp [breakAtFirst])
  | cons c cs ih =>
    intro a b h
    rw [breakAtFirst] at h
    by_cases hc : c = d
    · rw [if_pos hc] at h
      have := Option.some_injective _ h
      rw [← (Prod.mk.injEq _ _ _ _).mp this |>.1,
        ← (Prod.mk.injEq _ _ _ _).mp this |>.2]
      simp [hc]
    · rw [if_neg hc] at h
      cases hb : breakAtFirst d cs with
      | none => rw [hb] at h; exact absurd h (by simp)
      | some p =>
        rw [hb] at h
        obtain ⟨a', b'⟩ := p
        simp only [Option.map_some', Option.some.injEq, Prod.mk.injEq] at h
        obtain ⟨hab, hbb⟩ := h
        obtain ⟨hs, hd⟩ := ih hb
        subst hbb
        rw [← hab]
        constructor
        · rw [List.cons_append, hs]
        · simp only [List.mem_cons]
          rintro (h1 | h1)
          · exact hc h1.symm
          · exact hd h1

theorem breakAtFirst_none {d : Char} :
    ∀ {s : List Char}, breakAtFirst d s = none → d ∉ s := by
  intro s
  induction s with
  | nil =>
    intro _
    simp
  | cons c cs ih =>
    rw [breakAtFirst]
    by_cases hc : c = d
    · rw [if_pos hc]
      simp
    · rw [if_neg hc]
      intro h
      cases hb : breakAtFirst d cs with
      | none =>
        simp only [List.mem_cons]
        rintro (h1 | h1)
        · exact hc h1.symm
        · exact ih hb h1
      | some p => rw [hb] at h; exact absurd h (by simp)

theorem breakAtFirst_append {d : Char} :
    ∀ (a b : List Char), d ∉ a → breakAtFirst d (a ++ d :: b) = some (a, b) := by
  intro a
  induction a with
  | nil => intro b _; simp [breakAtFirst]
  | cons c cs ih =>
    intro b h
    have hc : ¬c = d := fun hcd => h (by simp [hcd])
    rw [List.cons_append, breakAtFirst, if_neg hc,
      ih b (fun hm => h (List.mem_cons_of_mem _ hm))]
    rfl

theorem pySplitOnce_fst_not_mem (d : Char) (r : List Char) :
    d ∉ (pySplitOnce d r).1 := by
  rw [pySplitOnce]
  cases hb : breakAtFirst d r with
  | none => exact breakAtFirst_none hb
  | some p => exact (breakAtFirst_some hb).2

theorem pySplitOnce_fst_head (d : Char) (r : List Char) :
    (pySplitOnce d r).1 = [] ∨ (pySplitOnce d r).1.head? = r.head? := by
  rw [pySplitOnce]
  cases hb : breakAtFirst d r with
  | none => exact Or.inr rfl
  | some p =>
    cases hp : p.1 with
    | nil => exact Or.inl rfl
    | cons c cs =>
      right
      have hs := (breakAtFirst_some hb).1
      rw [hs, hp]
      rfl

theorem pySplitOnce_fst_mem (d : Char) (r : List Char) {x : Char}
    (h : x ∈ (pySplitOnce d r).1) : x ∈ r := by
  rw [pySplitOnce] at h
  cases hb : breakAtFirst d r with
  | none => rw [hb] at h; exact h
  | some p =>
    rw [hb] at h
    rw [(breakAtFirst_some hb).1]
    simp only [List.mem_append]
    exact Or.inl h

theorem pySplitOnce_snd_mem (d : Char) (r : List Char) {x : Char}
    (h : x ∈ (pySplitOnce d r).2) : x ∈ r := by
  rw [pySplitOnce] at h
  cases hb : breakAtFirst d r with
  | none => rw [hb] at h; exact absurd h (by simp)
  | some p =>
    rw [hb] at h
    rw [(breakAtFirst_some hb).1]
    simp only [List.mem_append, List.mem_cons]
    exact Or.inr (Or.inr h)

theorem pySplitOnce_append (d : Char) (a b : List Char) (h : d ∉ a) :
    pySplitOnce d (a ++ d :: b) = (a, b) := by
  rw [pySplitOnce, breakAtFirst_append a b h]

theorem pySplitOnce_no_occ (d : Char) (r : List Char) (h : d ∉ r) :
    pySplitOnce d r = (r, []) := by
  rw [pySplitOnce]
  cases hb : breakAtFirst d r with
  | none => rfl
  | some p =>
    have hs := (breakAtFirst_some hb).1
    exact absurd (by rw [hs]; simp) h

theorem char_toNat_ofNat {n : Nat} (h : n.isValidChar) : (Char.ofNat n).toNat = n := by
  rw [Char.ofNat, dif_pos h]
  rfl

theorem toLower_cases (c : Char) :
    c.toLower = c ∨ (97 ≤ c.toLower.toNat ∧ c.toLower.toNat ≤ 122) := by
  rw [Char.toLower]
  by_cases h : c.toNat ≥ 65 ∧ c.toNat ≤ 90
  · rw [if_pos h]
    right
    have hv : (c.toNat + 32).isValidChar := Or.inl (by omega)
    rw [char_toNat_ofNat hv]
    omega
  · rw [if_neg h]
    exact Or.inl rfl

theorem toLower_idem (c : Char) : c.toLower.toLower = c.toLower := by
  rcases toLower_cases c with hc | hr
  · rw [hc]
    exact hc
  · rw [Char.toLower]
    rw [if_neg (by omega)]

theorem tabCrLf_toLower {c : Char} (h : tabCrLf c = false) :
    tabCrLf c.toLower = false := by
  rcases toLower_cases c with hc | hr
  · rw [hc]
    exact h
  · rw [tabCrLf]
    have h9 : ('\t' : Char).toNat = 9 := rfl
    have h13 : ('\r' : Char).toNat = 13 := rfl
    have h10 : ('\n' : Char).toNat = 10 := rfl
    simp only [Bool.or_eq_false_iff]
    refine ⟨⟨?_, ?_⟩, ?_⟩ <;>
      (rw [beq_eq_false_iff_ne]
       intro he
       rw [he] at hr)
    · rw [h9] at hr; omega
    · rw [h13] at hr; omega
    · rw [h10] at hr; omega

theorem netlocDelim_toLower {c : Char} (h : netlocDelim c = false) :
    netlocDelim c.toLower = false := by
  rcases toLower_cases c with hc | hr
  · rw [hc]
    exact h
  · rw [netlocDelim]
    have h47 : ('/' : Char).toNat = 47 := rfl
    have h63 : ('?' : Char).toNat = 63 := rfl
    have h35 : ('#' : Char).toNat = 35 := rfl
    simp only [Bool.or_eq_false_iff]
    refine ⟨⟨?_, ?_⟩, ?_⟩ <;>
      (rw [beq_eq_false_iff_ne]
       intro he
       rw [he] at hr)
    · rw [h47] at hr; omega
    · rw [h63] at hr; omega
    · rw [h35] at hr; omega

theorem splitPQF_path_spec (r : List Char) :
    ('#' : Char) ∉ (splitPQF r).1 ∧ ('?' : Char) ∉ (splitPQF r).1
    ∧ ((splitPQF r).1 = [] ∨ (splitPQF r).1.head? = r.head?)
    ∧ (∀ x, x ∈ (splitPQF r).1 → x ∈ r) := by
  rw [splitPQF]
  dsimp only
  refine ⟨?_, pySplitOnce_fst_not_mem _ _, ?_, ?_⟩
  · intro hx
    exact pySplitOnce_fst_not_mem '#' r (pySplitOnce_fst_mem _ _ hx)
  · rcases pySplitOnce_fst_head '?' (pySplitOnce '#' r).1 with h0 | hh
    · exact Or.inl h0
    · rcases pySplitOnce_fst_head '#' r with h0 | hh2
      · cases hp : (pySplitOnce '?' (pySplitOnce '#' r).1).1 with
        | nil => exact Or.inl rfl
        | cons c cs =>
          rw [h0] at hp
          simp [pySplitOnce, breakAtFirst] at hp
      · exact Or.inr (by rw [hh, hh2])
  · intro x hx
    exact pySplitOnce_fst_mem _ _ (pySplitOnce_fst_mem _ _ hx)

theorem splitPQF_query_spec (r : List Char) :
    ('#' : Char) ∉ (splitPQF r).2.1
    ∧ (∀ x, x ∈ (splitPQF r).2.1 → x ∈ r) := by
  rw [splitPQF]
  dsimp only
  constructor
  · intro hx
    exact pySplitOnce_fst_not_mem '#' r (pySplitOnce_snd_mem _ _ hx)
  · intro x hx
    exact pySplitOnce_fst_mem _ _ (pySplitOnce_snd_mem _ _ hx)

theorem cleanUrl_scheme (sch rest : List Char)
    (hs : sch = "http".data ∨ sch = "https".data) :
    cleanUrl (sch ++ ':' :: '/' :: '/' :: rest)
      = sch ++ ':' :: '/' :: '/' :: rest.filter (fun c => !tabCrLf c) := by
  rcases hs with h | h <;> subst h <;> rfl

theorem urlsplitCore_scheme (sch body : List Char)
    (hs : sch = "http".data ∨ sch = "https".data) :
    urlsplitCore [] (sch ++ ':' :: '/' :: '/' :: body)
      = ⟨sch, body.takeWhile (fun c => !netlocDelim c),
         (splitPQF (body.dropWhile (fun c => !netlocDelim c))).1,
         (splitPQF (body.dropWhile (fun c => !netlocDelim c))).2.1,
         (splitPQF (body.dropWhile (fun c => !netlocDelim c))).2.2⟩ := by
  rcases hs with h | h <;> subst h <;> rfl

theorem urlunsplit_netloc (sch n path q : List Char) (hsch : sch ≠ [])
    (hn : n ≠ []) (hpath : path = [] ∨ path.head? = some '/') :
    urlunsplitL ⟨sch, n, path, q, []⟩
      = (sch ++ ':' :: '/' :: '/' :: (n ++ path))
        ++ (if q.isEmpty then [] else '?' :: q) := by
  rw [urlunsplitL]
  dsimp only
  have hne : (!n.isEmpty) = true := by simp [List.isEmpty_iff, hn]
  have hsne : (!sch.isEmpty) = true := by simp [List.isEmpty_iff, hsch]
  rw [hne, Bool.true_or, if_pos rfl]
  have hadj : (if (!path.isEmpty && path.head? ≠ some '/' : Bool) = true
      then '/' :: path else path) = path := by
    rcases hpath with h0 | hh
    · rw [h0]
      rfl
    · rw [if_neg]
      simp [hh]
  rw [hadj, hsne, if_pos rfl]
  rw [show (!(([] : List Char).isEmpty)) = false from rfl,
    if_neg Bool.false_ne_true]
  by_cases hq : q.isEmpty = true
  · rw [show (!q.isEmpty) = false from by simp [hq], if_neg Bool.false_ne_true,
      if_pos hq, List.append_nil]
  · rw [show (!q.isEmpty) = true from by simp [hq], if_pos rfl, if_neg hq]

theorem toLowerL_idem (l : List Char) : toLowerL (toLowerL l) = toLowerL l := by
  simp only [toLowerL, List.map_map]
  exact List.map_congr_left (fun x _ => toLower_idem x)

theorem lower_netloc_all {n : List Char} (h : n.all (fun c => !netlocDelim c) = true) :
    (toLowerL n).all (fun c => !netlocDelim c) = true := by
  rw [toLowerL, List.all_map]
  rw [List.all_eq_true] at h ⊢
  intro x hx
  have hx' : netlocDelim x = false := by simpa using h x hx
  show (!netlocDelim x.toLower) = true
  rw [netlocDelim_toLower hx']
  rfl

theorem takeWhile_pathq (path q : List Char)
    (hpath_head : path = [] ∨ path.head? = some '/') :
    (path ++ (if q.isEmpty then [] else '?' :: q)).takeWhile
      (fun c => !netlocDelim c) = [] := by
  rcases hpath_head with h0 | hh
  · rw [h0, List.nil_append]
    by_cases hqe : q.isEmpty = true
    · rw [if_pos hqe]
      rfl
    · rw [if_neg hqe]
      exact takeWhile_cons_false _ (by rfl)
  · cases hp : path with
    | nil => rw [hp] at hh; exact absurd hh (by simp)
    | cons c cs =>
      rw [hp] at hh
      simp only [List.head?_cons, Option.some.injEq] at hh
      subst hh
      rw [List.cons_append]
      exact takeWhile_cons_false _ (by rfl)

theorem dropWhile_pathq (path q : List Char)
    (hpath_head : path = [] ∨ path.head? = some '/') :
    (path ++ (if q.isEmpty then [] else '?' :: q)).dropWhile
      (fun c => !netlocDelim c) = path ++ (if q.isEmpty then [] else '?' :: q) := by
  rcases hpath_head with h0 | hh
  · rw [h0, List.nil_append]
    by_cases hqe : q.isEmpty = true
    · rw [if_pos hqe]
      rfl
    · rw [if_neg hqe]
      exact dropWhile_cons_false _ (by rfl)
  · cases hp : path with
    | nil => rw [hp] at hh; exact absurd hh (by simp)
    | cons c cs =>
      rw [hp] at hh
      simp only [List.head?_cons, Option.some.injEq] at hh
      subst hh
      rw [List.cons_append]
      exact dropWhile_cons_false _ (by rfl)

theorem splitPQF_pathq (path q : List Char)
    (hpnh : ('#' : Char) ∉ path) (hpnq : ('?' : Char) ∉ path)
    (hqnh : ('#' : Char) ∉ q) :
    splitPQF (path ++ (if q.isEmpty then [] else '?' :: q)) = (path, q, []) := by
  have hfr : pySplitOnce '#' (path ++ (if q.isEmpty then [] else '?' :: q))
      = (path ++ (if q.isEmpty then [] else '?' :: q), []) := by
    apply pySplitOnce_no_occ
    intro hm
    rcases List.mem_append.mp hm with h1 | h1
    · exact hpnh h1
    · by_cases hqe : q.isEmpty = true
      · rw [if_pos hqe] at h1
        exact absurd h1 (by simp)
      · rw [if_neg hqe] at h1
        rcases List.mem_cons.mp h1 with h2 | h2
        · exact absurd h2 (by decide)
        · exact hqnh h2
  rw [splitPQF]
  rw [hfr]
  by_cases hqe : q.isEmpty = true
  · rw [if_pos hqe] at hfr ⊢
    rw [List.append_nil, pySplitOnce_no_occ '?' path hpnq]
    rw [List.isEmpty_iff] at hqe
    rw [hqe]
  · rw [if_neg hqe] at hfr ⊢
    rw [pySplitOnce_append '?' path q hpnq]

theorem normalize_scheme_body (sch : List Char)
    (hs : sch = "http".data ∨ sch = "https".data) (R : List Char) :
    normalize_urlL (sch ++ ':' :: '/' :: '/' :: R)
      = urlunsplitL
          ⟨sch,
           toLowerL ((R.filter (fun c => !tabCrLf c)).takeWhile
             (fun c => !netlocDelim c)),
           (splitPQF ((R.filter (fun c => !tabCrLf c)).dropWhile
             (fun c => !netlocDelim c))).1,
           (splitPQF ((R.filter (fun c => !tabCrLf c)).dropWhile
             (fun c => !netlocDelim c))).2.1,
           []⟩ := by
  have hsw : (startsWithL "http://".data (sch ++ ':' :: '/' :: '/' :: R)
      || startsWithL "https://".data (sch ++ ':' :: '/' :: '/' :: R)) = true := by
    rcases hs with h | h <;>
      (subst h; simp [startsWithL, List.isPrefixOf])
  rw [normalize_urlL]
  rw [hsw, if_pos rfl, urlsplitL, cleanUrl_scheme sch R hs,
    urlsplitCore_scheme sch _ hs]

theorem normalize_idem_aux (sch rest : List Char)
    (hs : sch = "http".data ∨ sch = "https".data)
    (hn : (urlsplitL [] (sch ++ ':' :: '/' :: '/' :: rest)).netloc ≠ []) :
    normalize_urlL (normalize_urlL (sch ++ ':' :: '/' :: '/' :: rest))
      = normalize_urlL (sch ++ ':' :: '/' :: '/' :: rest) := by
  have hsch_ne : sch ≠ [] := by rcases hs with h | h <;> (subst h; simp)
  set body := rest.filter (fun c => !tabCrLf c) with hbody
  set n := body.takeWhile (fun c => !netlocDelim c) with hn_def
  set rest2 := body.dropWhile (fun c => !netlocDelim c) with hrest2
  set path := (splitPQF rest2).1 with hpath_def
  set q := (splitPQF rest2).2.1 with hq_def
  have hsplit : urlsplitL [] (sch ++ ':' :: '/' :: '/' :: rest)
      = ⟨sch, n, path, q, (splitPQF rest2).2.2⟩ := by
    rw [urlsplitL, cleanUrl_scheme sch rest hs, ← hbody,
      urlsplitCore_scheme sch body hs]
  have hnne : n ≠ [] := by
    rw [hsplit] at hn
    exact hn
  have hlow_ne : toLowerL n ≠ [] := by
    rw [toLowerL]
    simpa using hnne
  have hbody_clean : ∀ x ∈ body, tabCrLf x = false := by
    intro x hx
    rw [hbody] at hx
    simpa using (List.mem_filter.mp hx).2
  have hn_nodelim : n.all (fun c => !netlocDelim c) = true := takeWhile_all _ body
  have hpnh : ('#' : Char) ∉ path := (splitPQF_path_spec rest2).1
  have hpnq : ('?' : Char) ∉ path := (splitPQF_path_spec rest2).2.1
  have hqnh : ('#' : Char) ∉ q := (splitPQF_query_spec rest2).1
  have hpmem : ∀ x, x ∈ path → x ∈ rest2 := (splitPQF_path_spec rest2).2.2.2
  have hqmem : ∀ x, x ∈ q → x ∈ rest2 := (splitPQF_query_spec rest2).2
  have hpath_head : path = [] ∨ path.head? = some '/' := by
    have hh0 : path = [] ∨ path.head? = rest2.head? := (splitPQF_path_spec rest2).2.2.1
    rcases hh0 with h0 | hh
    · exact Or.inl h0
    · cases hp : path with
      | nil => exact Or.inl rfl
      | cons c cs =>
        right
        rw [hp] at hh
        cases hr2 : rest2 with
        | nil =>
          rw [hr2] at hh
          exact absurd hh (by simp)
        | cons d ds =>
          rw [hr2] at hh
          simp only [List.head?_cons, Option.some.injEq] at hh
          have hdel : (fun c => !netlocDelim c) d = false := by
            refine dropWhile_head_false (p := fun c => !netlocDelim c) (d := ds)
              (l := body) ?_
            rw [← hrest2]
            exact hr2
          have hdel' : netlocDelim d = true := by simpa using hdel
          have hcp : c ∈ path := by rw [hp]; exact List.mem_cons_self _ _
          have hc_nh : c ≠ '#' := fun he => hpnh (he ▸ hcp)
          have hc_nq : c ≠ '?' := fun he => hpnq (he ▸ hcp)
          rw [netlocDelim] at hdel'
          simp only [Bool.or_eq_true, beq_iff_eq] at hdel'
          simp only [List.head?_cons, Option.some.injEq]
          rcases hdel' with (h1 | h1) | h1
          · rw [hh, h1]
          · exact absurd (hh.trans h1) hc_nq
          · exact absurd (hh.trans h1) hc_nh
  have hpclean : ∀ x ∈ path, tabCrLf x = false := fun x hx =>
    hbody_clean x (mem_dropWhile (hpmem x hx))
  have hqclean : ∀ x ∈ q, tabCrLf x = false := fun x hx =>
    hbody_clean x (mem_dropWhile (hqmem x hx))
  have hlowclean : ∀ x ∈ toLowerL n, tabCrLf x = false := by
    intro x hx
    rw [toLowerL] at hx
    obtain ⟨y, hy, hxy⟩ := List.mem_map.mp hx
    rw [← hxy]
    exact tabCrLf_toLower (hbody_clean y (mem_takeWhile hy))
  have hB2clean :
      (toLowerL n ++ (path ++ (if q.isEmpty then [] else '?' :: q))).filter
        (fun c => !tabCrLf c)
      = toLowerL n ++ (path ++ (if q.isEmpty then [] else '?' :: q)) := by
    rw [List.filter_eq_self]
    intro a ha
    simp only [Bool.not_eq_true']
    rcases List.mem_append.mp ha with h1 | h1
    · exact hlowclean a h1
    · rcases List.mem_append.mp h1 with h2 | h2
      · exact hpclean a h2
      · by_cases hqe : q.isEmpty = true
        · rw [if_pos hqe] at h2
          exact absurd h2 (by simp)
        · rw [if_neg hqe] at h2
          rcases List.mem_cons.mp h2 with h3 | h3
          · rw [h3]
            rfl
          · exact hqclean a h3
  have hfirst : normalize_urlL (sch ++ ':' :: '/' :: '/' :: rest)
      = (sch ++ ':' :: '/' :: '/' :: (toLowerL n ++ path))
        ++ (if q.isEmpty then [] else '?' :: q) := by
    rw [normalize_scheme_body sch hs rest, ← hbody]
    rw [urlunsplit_netloc sch (toLowerL n) path q hsch_ne hlow_ne hpath_head]
  have hassoc : (sch ++ ':' :: '/' :: '/' :: (toLowerL n ++ path))
        ++ (if q.isEmpty then [] else '?' :: q)
      = sch ++ ':' :: '/' :: '/' ::
          (toLowerL n ++ (path ++ (if q.isEmpty then [] else '?' :: q))) := by
    simp [List.append_assoc]
  have hsecond : normalize_urlL (sch ++ ':' :: '/' :: '/' ::
        (toLowerL n ++ (path ++ (if q.isEmpty then [] else '?' :: q))))
      = (sch ++ ':' :: '/' :: '/' :: (toLowerL n ++ path))
        ++ (if q.isEmpty then [] else '?' :: q) := by
    rw [normalize_scheme_body sch hs _, hB2clean,
      takeWhile_append_all _ (lower_netloc_all hn_nodelim),
      takeWhile_pathq path q hpath_head, List.append_nil,
      dropWhile_append_all _ (lower_netloc_all hn_nodelim),
      dropWhile_pathq path q hpath_head,
      splitPQF_pathq path q hpnh hpnq hqnh, toLowerL_idem]
    show urlunsplitL ⟨sch, toLowerL n, path, q, []⟩ = _
    rw [urlunsplit_netloc sch (toLowerL n) path q hsch_ne hlow_ne hpath_head]
  calc normalize_urlL (normalize_urlL (sch ++ ':' :: '/' :: '/' :: rest))
      = normalize_urlL (sch ++ ':' :: '/' :: '/' ::
          (toLowerL n ++ (path ++ (if q.isEmpty then [] else '?' :: q)))) := by
        rw [hfirst, hassoc]
    _ = (sch ++ ':' :: '/' :: '/' :: (toLowerL n ++ path))
          ++ (if q.isEmpty then [] else '?' :: q) := hsecond
    _ = normalize_urlL (sch ++ ':' :: '/' :: '/' :: rest) := by rw [hfirst]

/-- C10 counterexample: `"http:////A"` starts with `http://`, normalizes to
`"http://A"` (the parse has an empty netloc and the path `//A`, which
`urlunsplit` emits without touching), and re-normalizing lower-cases what is
now parsed as the netloc, giving `"http://a"` — so normalize_url is not
idempotent on every string starting with `http://`. -/
theorem normalize_not_idempotent :
    startsWithL "http://".data "http:////A".data = true
    ∧ normalize_urlL "http:////A".data = "http://A".data
    ∧ normalize_urlL (normalize_urlL "http:////A".data) = "http://a".data
    ∧ decide (normalize_urlL (normalize_urlL "http:////A".data)
        = normalize_urlL "http:////A".data) = false := by decide

/-- C10 amended: normalize_url is idempotent on every string that starts with
`http://` or `https://` and whose parsed authority (netloc) is non-empty;
for an empty authority (e.g. `"http:////A"`) re-normalization can reinterpret
the path as the host and change the result. -/
theorem normalize_idempotent_amended (u : List Char)
    (h : startsWithL "http://".data u = true ∨ startsWithL "https://".data u = true)
    (hn : (urlsplitL [] u).netloc ≠ []) :
    normalize_urlL (normalize_urlL u) = normalize_urlL u := by
  rcases h with h | h
  · have hd : u = "http".data ++ ':' :: '/' :: '/' :: u.drop ("http://".data).length :=
      startsWithL_decomp h
    rw [hd] at hn ⊢
    exact normalize_idem_aux _ _ (Or.inl rfl) hn
  · have hd : u = "https".data ++ ':' :: '/' :: '/' :: u.drop ("https://".data).length :=
      startsWithL_decomp h
    rw [hd] at hn ⊢
    exact normalize_idem_aux _ _ (Or.inr rfl) hn

theorem normalize_idempotent_amended_witness :
    (startsWithL "http://".data "http://A.com/X?q=1#f".data = true
      ∨ startsWithL "https://".data "http://A.com/X?q=1#f".data = true)
    ∧ (urlsplitL [] "http://A.com/X?q=1#f".data).netloc ≠ []
    ∧ normalize_urlL (normalize_urlL "http://A.com/X?q=1#f".data)
        = normalize_urlL "http://A.com/X?q=1#f".data :=
  ⟨Or.inl (by decide), by decide,
   normalize_idempotent_amended "http://A.com/X?q=1#f".data (Or.inl (by decide))
     (by decide)⟩

/-! ## The URL classifier (C4) -/

theorem findUrlsFuel_mem_length : ∀ (fuel : Nat) (s m : List Char),
    m ∈ findUrlsFuel fuel s → m.length ≤ s.length := by
  intro fuel
  induction fuel with
  | zero => intro s m h; exact absurd h (by simp [findUrlsFuel])
  | succ fuel ih =>
    intro s m h
    cases s with
    | nil => exact absurd h (by simp [findUrlsFuel])
    | cons c cs =>
      rw [findUrlsFuel] at h
      cases hm : matchUrlAt (c :: cs) with
      | some p =>
        obtain ⟨mm, rest⟩ := p
        rw [hm] at h
        dsimp only at h
        rcases List.mem_cons.mp h with h1 | h1
        · subst h1
          have happ := (matchUrlAt_append hm).1
          rw [happ, List.length_append]
          omega
        · have h2 := ih rest m h1
          have h3 := matchUrlAt_length hm
          omega
      | none =>
        rw [hm] at h
        dsimp only at h
        have h2 := ih cs m h
        simp only [List.length_cons]
        omega

theorem findUrls_mem_length (s m : List Char) (h : m ∈ findUrls s) :
    m.length ≤ s.length :=
  findUrlsFuel_mem_length s.length s m h

theorem findUrls_single {s : List Char} (h : findUrls s = [s]) :
    matchUrlAt s = some (s, []) := by
  cases s with
  | nil => rw [findUrls_nil] at h; exact absurd h (by simp)
  | cons c cs =>
    rw [findUrls_cons] at h
    cases hm : matchUrlAt (c :: cs) with
    | some p =>
      obtain ⟨m, rest⟩ := p
      rw [hm] at h
      dsimp only at h
      obtain ⟨hs2, _⟩ := (List.cons.injEq _ _ _ _).mp h
      have happ := (matchUrlAt_append hm).1
      rw [hs2] at happ
      have hl := congrArg List.length happ
      rw [List.length_append] at hl
      have hrest : rest = [] := List.eq_nil_of_length_eq_zero (by omega)
      rw [hs2, hrest]
    | none =>
      rw [hm] at h
      dsimp only at h
      have hmem : (c :: cs) ∈ findUrls cs := by rw [h]; simp
      have hle := findUrls_mem_length cs _ hmem
      simp only [List.length_cons] at hle
      exact absurd hle (by omega)

theorem findUrls_of_match {s m : List Char} (hne : s ≠ [])
    (hm : matchUrlAt s = some (m, [])) : findUrls s = [m] := by
  cases s with
  | nil => exact absurd rfl hne
  | cons c cs =>
    rw [findUrls_cons, hm]
    dsimp only
    rw [findUrls_nil]

theorem takeWhile_of_all {p : Char → Bool} {l : List Char} (h : l.all p = true) :
    l.takeWhile p = l := by
  have := takeWhile_append_all (p := p) ([] : List Char) h
  simpa using this

theorem dropWhile_of_all {p : Char → Bool} {l : List Char} (h : l.all p = true) :
    l.dropWhile p = [] := by
  have := dropWhile_append_all (p := p) ([] : List Char) h
  simpa using this

theorem matchUrlAt_full (pfx body : List Char)
    (hp : pfx = "http://".data ∨ pfx = "https://".data)
    (hne : body ≠ []) (hclass : body.all urlChar = true) :
    matchUrlAt (pfx ++ body) = some (pfx ++ body, []) := by
  have htake : body.takeWhile urlChar = body := takeWhile_of_all hclass
  have hdrop : body.dropWhile urlChar = [] := dropWhile_of_all hclass
  rcases hp with h | h <;> subst h
  · rw [matchUrlAt]
    rw [show startsWithL "https://".data ("http://".data ++ body) = false from by
      simp [startsWithL, List.isPrefixOf]]
    rw [if_neg Bool.false_ne_true]
    rw [show startsWithL "http://".data ("http://".data ++ body) = true from by
      simp [startsWithL, List.isPrefixOf], if_pos rfl]
    rw [show (7 : Nat) = ("http://".data).length from rfl, List.drop_left]
    rw [urlTail, htake, hdrop]
    rw [if_neg (by simp [List.isEmpty_iff, hne])]
  · rw [matchUrlAt]
    rw [show startsWithL "https://".data ("https://".data ++ body) = true from by
      simp [startsWithL, List.isPrefixOf], if_pos rfl]
    rw [show (8 : Nat) = ("https://".data).length from rfl, List.drop_left]
    rw [urlTail, htake, hdrop]
    rw [if_neg (by simp [List.isEmpty_iff, hne])]

theorem urlChar_not_tab {c : Char} (h : urlChar c = true) : tabCrLf c = false := by
  by_contra hx
  simp only [Bool.not_eq_false] at hx
  rw [tabCrLf] at hx
  simp only [Bool.or_eq_true, beq_iff_eq] at hx
  rcases hx with (h1 | h1) | h1 <;> subst h1 <;> exact absurd h (by decide)

theorem filter_urlChar_clean {body : List Char} (hclass : body.all urlChar = true) :
    body.filter (fun c => !tabCrLf c) = body := by
  rw [List.filter_eq_self]
  intro a ha
  simp only [Bool.not_eq_true']
  rw [List.all_eq_true] at hclass
  exact urlChar_not_tab (hclass a ha)

theorem urlsplit_urlChar (sch body : List Char)
    (hs : sch = "http".data ∨ sch = "https".data)
    (hclass : body.all urlChar = true) :
    urlsplitL [] (sch ++ ':' :: '/' :: '/' :: body)
      = ⟨sch, body.takeWhile (fun c => !netlocDelim c),
         (splitPQF (body.dropWhile (fun c => !netlocDelim c))).1,
         (splitPQF (body.dropWhile (fun c => !netlocDelim c))).2.1,
         (splitPQF (body.dropWhile (fun c => !netlocDelim c))).2.2⟩ := by
  rw [urlsplitL, cleanUrl_scheme sch body hs, filter_urlChar_clean hclass,
    urlsplitCore_scheme sch body hs]

theorem is_url_only_textL_eq (nfkc : List Char → List Char) (t : List Char) :
    is_url_only_textL nfkc t
      = if (pyStripU t).isEmpty then none
        else if is_valid_urlL nfkc (pyStripU t) then
          match findUrls (pyStripU t) with
          | [w] => if w = pyStripU t then some (normalize_urlL (pyStripU t)) else none
          | _ => none
        else none := rfl

/-- The claim's condition, following the spec's words: "the entire (trimmed)
text is exactly one syntactically valid absolute URL (scheme + host present)
with no other characters" — the trimmed text is non-empty and parses with
both a scheme and a host (`is_valid_url`, the code's own notion of a
syntactically valid URL). -/
def specUrlOnly (nfkc : List Char → List Char) (t : List Char) : Bool :=
  !(pyStripU t).isEmpty && is_valid_urlL nfkc (pyStripU t)

/-- C4 counterexample: `"ftp://a.com"` is, in its entirety, a syntactically
valid absolute URL — it parses with scheme `ftp` and host `a.com` — yet
`is_url_only_text` returns the not-URL-only result, because the extraction
regex only recognizes http/https URLs: the claimed "if and only if" fails.
The remaining conjuncts pin the classifier's behaviour at the boundary
cases: text padded with a no-break space (Unicode whitespace, stripped by
`str.strip()`) is accepted and normalized, and `"http://[a"` — where
`urlparse` raises `"Invalid IPv6 URL"` and the bare `except` of
`is_valid_url` answers `False` — is not URL-only on both sides. -/
theorem url_classifier_refuted :
    specUrlOnly nfkcAscii "ftp://a.com".data = true
    ∧ is_url_only_textL nfkcAscii "ftp://a.com".data = none
    ∧ is_url_only_textL nfkcAscii "https://a.com\xA0".data
        = some "https://a.com".data
    ∧ specUrlOnly nfkcAscii "http://[a".data = false
    ∧ is_url_only_textL nfkcAscii "http://[a".data = none := by decide

/-- C4 amended: `is_url_only_text` returns a normalized URL exactly when the
trimmed text is a single http/https link written entirely with the link
pattern's characters (so no whitespace, `#`, or characters outside the
class) that `is_valid_url` accepts — syntactic validity (scheme + host
present) is necessary but not sufficient: the whole trimmed text must also
be one hit of the http/https extraction regex, so valid URLs of other
schemes (see the counterexample) are reported not-URL-only. -/
theorem url_classifier_amended (nfkc : List Char → List Char) (t u : List Char) :
    is_url_only_textL nfkc t = some u
    ↔ ∃ body : List Char,
        (pyStripU t = "http://".data ++ body ∨ pyStripU t = "https://".data ++ body)
        ∧ body ≠ [] ∧ body.all urlChar = true
        ∧ is_valid_urlL nfkc (pyStripU t) = true
        ∧ u = normalize_urlL (pyStripU t) := by
  rw [is_url_only_textL_eq]
  constructor
  · intro h
    by_cases hemp : (pyStripU t).isEmpty = true
    · rw [if_pos hemp] at h
      exact absurd h (by simp)
    · rw [if_neg hemp] at h
      by_cases hval : is_valid_urlL nfkc (pyStripU t) = true
      · rw [if_pos hval] at h
        cases hf : findUrls (pyStripU t) with
        | nil => rw [hf] at h; exact absurd h (by simp)
        | cons w ws =>
          cases ws with
          | cons w2 ws2 => rw [hf] at h; exact absurd h (by simp)
          | nil =>
            rw [hf] at h
            dsimp only at h
            by_cases hw : w = pyStripU t
            · rw [if_pos hw] at h
              rw [hw] at hf
              have hmatch := findUrls_single hf
              obtain ⟨pfx, hpfx, hsdecomp, _, hrest, hne2⟩ := matchUrlAt_some hmatch
              have htd : ((pyStripU t).drop pfx.length).takeWhile urlChar
                  ++ ((pyStripU t).drop pfx.length).dropWhile urlChar
                    = (pyStripU t).drop pfx.length :=
                List.takeWhile_append_dropWhile _ _
              rw [← hrest, List.append_nil] at htd
              have hclass2 : ((pyStripU t).drop pfx.length).all urlChar = true := by
                rw [← htd]
                exact takeWhile_all _ _
              refine ⟨(pyStripU t).drop pfx.length, ?_, ?_, hclass2, hval, ?_⟩
              · rcases hpfx with h1 | h1
                · exact Or.inl (by rw [← h1]; exact hsdecomp)
                · exact Or.inr (by rw [← h1]; exact hsdecomp)
              · intro h0
                exact hne2 (by rw [htd]; exact h0)
              · exact (Option.some_injective _ h).symm
            · rw [if_neg hw] at h
              exact absurd h (by simp)
      · rw [if_neg hval] at h
        exact absurd h (by simp)
  · rintro ⟨body, hpfx, hne, hclass, hval, hu⟩
    rcases hpfx with h1 | h1
    · rw [h1] at hu hval ⊢
      rw [show (("http://".data ++ body).isEmpty) = false from rfl,
        if_neg Bool.false_ne_true]
      rw [hval, if_pos rfl]
      have hfind : findUrls ("http://".data ++ body) = ["http://".data ++ body] :=
        findUrls_of_match (List.cons_ne_nil _ _)
          (matchUrlAt_full "http://".data body (Or.inl rfl) hne hclass)
      rw [hfind]
      dsimp only
      rw [if_pos rfl, hu]
    · rw [h1] at hu hval ⊢
      rw [show (("https://".data ++ body).isEmpty) = false from rfl,
        if_neg Bool.false_ne_true]
      rw [hval, if_pos rfl]
      have hfind : findUrls ("https://".data ++ body) = ["https://".data ++ body] :=
        findUrls_of_match (List.cons_ne_nil _ _)
          (matchUrlAt_full "https://".data body (Or.inr rfl) hne hclass)
      rw [hfind]
      dsimp only
      rw [if_pos rfl, hu]

end Scraper
